import Mathlib

/-!
# pikpakapi: captcha signing and chunked upload

A shallow embedding of `pikpak_captcha_token.go` and `pikpak_upload.go`.

* Go `int64` values are `Int`s; the arithmetic of `uploadChunk` goes through `wrap64`.
* The `float64` values that occur in `UploadFile` are non-negative and finite; they are
  represented exactly, as integers or as dyadic fractions `m / 2 ^ k`, and every
  conversion and division rounds to nearest, ties to even, at 53 significant bits.
* Calls that leave the process (file reads, HTTP round trips) are answered by oracles,
  so that every outcome the Go code distinguishes can be supplied. A goroutine that
  never returns is a result `none` for every amount of fuel.
* The functions of the Go standard library that `hmacAuthorization` calls
  (`strings.ToLower`, the HTTP date layout, HMAC-SHA1, base64) are the fields of
  `Stdlib`, so that the theorems hold for every such function; `goStdlib` holds them
  as Go computes them. `md5.Sum` is an argument of the captcha chain, and `goMd5Sum`
  is MD5 as RFC 1321 defines it. `sort.Slice`, `strconv.Atoi`, `fmt.Sprintf` of `%d`
  and `%x`, `strings.Contains` and `strings.Trim` are written out.
* A panic (`make` with a length or capacity out of range) ends `UploadFile` with
  `Outcome.panic`; in a worker it is the event `Event.panic`.
-/

namespace Pikpak

/-! ## Machine integers and decimal text -/

/-- Largest `int64`. -/
def maxInt64 : Int := 2 ^ 63 - 1

/-- Smallest `int64`. -/
def minInt64 : Int := -(2 ^ 63)

/-- Two's complement reduction of an integer to the `int64` range. -/
def wrap64 (x : Int) : Int := (x + 2 ^ 63) % 2 ^ 64 - 2 ^ 63

/-- The character of one decimal digit. -/
def decChar (d : Nat) : Char := Char.ofNat (48 + d % 10)

/-- Decimal digits of `n`, most significant first, pushed in front of `acc`;
`fuel` bounds the number of digits. -/
def decDigits : Nat → Nat → List Char → List Char
  | 0, _, acc => acc
  | fuel + 1, n, acc =>
    if n / 10 = 0 then decChar n :: acc
    else decDigits fuel (n / 10) (decChar n :: acc)

/-- Decimal text of a natural number. -/
def formatNat (n : Nat) : List Char := decDigits (n + 1) n []

/-- Go `fmt.Sprintf("%d", z)` for an integer `z`. -/
def sprintfD (z : Int) : String :=
  if z < 0 then String.mk ('-' :: formatNat z.natAbs) else String.mk (formatNat z.natAbs)

/-- Result of the digit loop of `strconv.ParseUint`. -/
inductive ParseRes where
  | syntaxErr : ParseRes
  | rangeErr : ParseRes
  | ok : Nat → ParseRes
deriving DecidableEq, Repr

/-- Digit loop of `strconv.ParseUint(s, 10, 64)`: bytes are consumed left to right, a
byte that is no decimal digit is a syntax error, a value above `2 ^ 64 - 1` is a
range error, whichever comes first. -/
def parseUintLoop : List Char → Nat → ParseRes
  | [], n => ParseRes.ok n
  | c :: cs, n =>
    if 48 ≤ c.toNat ∧ c.toNat ≤ 57 then
      if 2 ^ 64 ≤ n * 10 + (c.toNat - 48) then ParseRes.rangeErr
      else parseUintLoop cs (n * 10 + (c.toNat - 48))
    else ParseRes.syntaxErr

/-- The value `strconv.Atoi` returns on 64-bit platforms, its error dropped (the call
sites read `iNum, _ := strconv.Atoi(...)`): `0` on a syntax error, the nearest `int64`
on a range error. -/
def atoi (s : String) : Int :=
  match s.data with
  | [] => 0
  | c :: cs =>
    let neg := c = '-'
    let body := if c = '-' ∨ c = '+' then cs else c :: cs
    match body with
    | [] => 0
    | _ :: _ =>
      match parseUintLoop body 0 with
      | ParseRes.syntaxErr => 0
      | ParseRes.rangeErr => if neg then minInt64 else maxInt64
      | ParseRes.ok un =>
        if neg then (if 2 ^ 63 < un then minInt64 else -(un : Int))
        else (if 2 ^ 63 ≤ un then maxInt64 else (un : Int))

/-! ## float64 arithmetic of the chunk planner -/

/-- Quotient `a / b` rounded to the nearest integer, ties to the even one. -/
def roundHalfEven (a b : Nat) : Nat :=
  if 2 * (a % b) < b then a / b
  else if b < 2 * (a % b) then a / b + 1
  else if (a / b) % 2 = 0 then a / b else a / b + 1

/-- Least `s ≥ s0` with `a < 2 ^ 53 * b * 2 ^ s`, searched for `fuel` steps. -/
def scaleDown : Nat → Nat → Nat → Nat → Nat
  | 0, _, _, s => s
  | fuel + 1, a, b, s => if a < 2 ^ 53 * b * 2 ^ s then s else scaleDown fuel a b (s + 1)

/-- Least `k ≥ k0` with `2 ^ 52 * b ≤ a * 2 ^ k`, searched for `fuel` steps. -/
def scaleUp : Nat → Nat → Nat → Nat → Nat
  | 0, _, _, k => k
  | fuel + 1, a, b, k => if 2 ^ 52 * b ≤ a * 2 ^ k then k else scaleUp fuel a b (k + 1)

/-- A non-negative finite `float64`, the dyadic fraction `m / 2 ^ k`. -/
structure F64 where
  m : Nat
  k : Nat
deriving DecidableEq, Repr

/-- The `float64` nearest to the fraction `a / b` (ties to even, 53-bit significand);
the exponent range of `float64` is not modelled, which is exact for values in
`[2 ^ (-1022), 2 ^ 1024)`. -/
def f64round (a b : Nat) : F64 :=
  if a = 0 then ⟨0, 0⟩
  else if 2 ^ 53 * b ≤ a then
    ⟨roundHalfEven a (b * 2 ^ scaleDown a a b 0) * 2 ^ scaleDown a a b 0, 0⟩
  else
    ⟨roundHalfEven (a * 2 ^ scaleUp (52 + b) a b 0) b, scaleUp (52 + b) a b 0⟩

/-- Go `float64(n)` for a non-negative integer: the result is an integer again. -/
def float64OfNat (n : Nat) : Nat := (f64round n 1).m / 2 ^ (f64round n 1).k

/-- Go `x / y` on `float64` for integer-valued `x ≥ 0` and `y > 0`. -/
def float64Div (x y : Nat) : F64 := f64round x y

/-- Go `int64(math.Ceil(x))` for `0 ≤ x < 2 ^ 63`. -/
def ceilToInt64 (x : F64) : Int := ((x.m + 2 ^ x.k - 1) / 2 ^ x.k : Nat)

/-- Go `var defaultChunkSize int64 = 1 << 18`. -/
def defaultChunkSize : Int := 2 ^ 18

/-- Go `var Concurrent int64 = 1 << 4`. -/
def Concurrent : Int := 2 ^ 4

/-- The chunk size of `UploadFile`:
`int64(math.Ceil(float64(fileSize) / 10000))`, raised to `defaultChunkSize`.
A file size that is not positive converts to a float that is not positive, whose
quotient and ceiling are not positive either, so the floor applies. -/
def chunkSizeOf (fileSize : Int) : Int :=
  if fileSize ≤ 0 then defaultChunkSize
  else
    if ceilToInt64 (float64Div (float64OfNat fileSize.toNat) 10000) < defaultChunkSize then
      defaultChunkSize
    else ceilToInt64 (float64Div (float64OfNat fileSize.toNat) 10000)

/-- Number of loop passes `partSize = 0, 1, 2, …` of `uploadChunk` whose offset
`partSize * ChunkSize` lies below `fileSize`: the number of parts of the upload. -/
def partCount (fileSize ChunkSize : Int) : Nat := ((fileSize + ChunkSize - 1) / ChunkSize).toNat

/-! ## Text helpers of the standard library -/

/-- Go `strings.Contains(s, sub)` on the characters of `s`. -/
def containsChars (sub : List Char) : List Char → Bool
  | [] => sub.isEmpty
  | c :: cs => sub.isPrefixOf (c :: cs) || containsChars sub cs

/-- Go `strings.Contains`. -/
def stringsContains (s sub : String) : Bool := containsChars sub.data s.data

/-- Go `strings.Trim(s, "\"")`: leading and trailing double quotes removed. -/
def trimQuotes (s : String) : String :=
  String.mk (((s.data.dropWhile (fun c => c = '"')).reverse.dropWhile (fun c => c = '"')).reverse)

/-- The inner loop of Go's insertion sort, `for j := i; j > a && less(j, j-1); j--`
with a swap per step: `x` moves left past every entry it is `less` than. `rev` is
the sorted prefix with its last entry first. -/
def sinkInto {α : Type} (less : α → α → Bool) (x : α) : List α → List α
  | [] => [x]
  | y :: rev => if less x y then y :: sinkInto less x rev else x :: y :: rev

/-- Go `sort.Slice(data, less)`. The library runs this insertion sort on slices of at
most 12 entries. On longer slices its pattern-defeating quicksort returns some
ordering of the entries that is sorted for `less`; when no two entries are equivalent
for `less` there is one such ordering only, the one defined here
(`sorted_perm_unique`). -/
def sortSlice {α : Type} (less : α → α → Bool) (data : List α) : List α :=
  (data.foldl (fun rev x => sinkInto less x rev) []).reverse

/-! ## Data of `pikpak_upload.go` -/

/-- Go `type part struct`. -/
structure part where
  PartNumber : String
  ETag : String
deriving DecidableEq, Repr

/-- Go `type ossArgs struct`. -/
structure ossArgs where
  Bucket : String
  AccessKeyId : String
  AccessKeySecret : String
  EndPoint : String
  Key : String
  SecurityToken : String
deriving DecidableEq, Repr

/-- Go `type header struct`. -/
structure header where
  key : String
  val : String
deriving DecidableEq, Repr

/-! ## uploadChunk -/

/-- What the outside world answers to one worker. `t` counts the passes of the loop
of that worker, so that a repeated request can be answered differently. -/
structure ChunkIO where
  /-- Number of bytes `f.ReadAt(buf, offset)` returns in pass `t`; the bytes are those
  of the file from `offset` on. The error is dropped by the code. -/
  readAt : Nat → Int → Int
  /-- Whether `http.NewRequest` fails in pass `t` for the given part number. -/
  newRequestErr : Nat → Int → Bool
  /-- Answer of `http.DefaultClient.Do` in pass `t` to the PUT of the given part number
  carrying the `n` bytes from `offset`: `none` for a transport error, else the `ETag`
  header of the response. -/
  doPut : Nat → Int → Int → Int → Option String

/-- What a worker does that is visible outside of it. -/
inductive Event where
  /-- A PUT handed to the HTTP client: part number of the query, and the payload
  `buf[:n]`, the `n` bytes of the file that start at `offset`. -/
  | put (partNumber offset n : Int) : Event
  /-- A `part` sent on the channel. -/
  | result (p : part) : Event
  /-- The goroutine panics, which ends the process. -/
  | panic : Event
deriving DecidableEq, Repr

/-- The largest length Go `make([]byte, n)` accepts on 64-bit platforms with 48
address bits (`maxAlloc` of the runtime); `n < 0` and `n > maxAlloc` panic with
`makeslice: len out of range`. -/
def maxAlloc : Int := 2 ^ 48

/-- The loop `for offset < fileSize` of `uploadChunk`; one unit of `fuel` per pass,
`none` when the passes exceed the fuel. `W` is the package variable `Concurrent`. -/
def uploadChunkLoop (io : ChunkIO) (ChunkSize fileSize W : Int) :
    Nat → Nat → Int → Int → Option (List Event)
  | 0, _, _, offset => if offset < fileSize then none else some []
  | fuel + 1, t, partSize, offset =>
    if offset < fileSize then
      if 0 < io.readAt t offset then
        if io.newRequestErr t (wrap64 (partSize + 1)) then
          -- `continue`: partSize and offset keep their values
          uploadChunkLoop io ChunkSize fileSize W fuel (t + 1) partSize offset
        else
          match io.doPut t (wrap64 (partSize + 1)) offset (io.readAt t offset) with
          | none =>
            -- `continue`: partSize and offset keep their values
            (uploadChunkLoop io ChunkSize fileSize W fuel (t + 1) partSize offset).map
              (fun es => Event.put (wrap64 (partSize + 1)) offset (io.readAt t offset) :: es)
          | some etag =>
            (uploadChunkLoop io ChunkSize fileSize W fuel (t + 1) (wrap64 (partSize + W))
              (wrap64 (wrap64 (partSize + W) * ChunkSize))).map
              (fun es => Event.put (wrap64 (partSize + 1)) offset (io.readAt t offset)
                :: Event.result ⟨sprintfD (wrap64 (partSize + 1)), trimQuotes etag⟩ :: es)
      else
        uploadChunkLoop io ChunkSize fileSize W fuel (t + 1) (wrap64 (partSize + W))
          (wrap64 (wrap64 (partSize + W) * ChunkSize))
    else some []

/-- Go `uploadChunk`, for the worker started with `partSize`: the early return, then
`buf := make([]byte, ChunkSize)`, which panics for a length out of range (a length
within the range is taken to be allocated), then the loop. -/
def uploadChunk (io : ChunkIO) (ChunkSize fileSize W : Int) (fuel : Nat) (partSize : Int) :
    Option (List Event) :=
  if wrap64 (partSize * ChunkSize) ≥ fileSize then some []
  else if ChunkSize < 0 ∨ maxAlloc < ChunkSize then some [Event.panic]
  else uploadChunkLoop io ChunkSize fileSize W fuel 0 partSize (wrap64 (partSize * ChunkSize))

/-- All results, or `none` if one is missing. -/
def allSome {α : Type} : List (Option α) → Option (List α)
  | [] => some []
  | none :: _ => none
  | some x :: rest => (allSome rest).map (fun xs => x :: xs)

/-- The workers `for i := int64(0); i < Concurrent; i++ { go uploadChunk(…, i, …) }`
followed by `wait.Wait()`: the events of each worker, or `none` if a worker does not
finish within `fuel` passes. -/
def workerPool (io : Nat → ChunkIO) (ChunkSize fileSize W : Int) (fuel : Nat) :
    Option (List (List Event)) :=
  allSome ((List.range W.toNat).map (fun i => uploadChunk (io i) ChunkSize fileSize W fuel i))

/-- The PUT requests among some events, as (part number, offset, length). -/
def putsOf : List Event → List (Int × Int × Int)
  | [] => []
  | Event.put k off n :: es => (k, off, n) :: putsOf es
  | Event.result _ :: es => putsOf es
  | Event.panic :: es => putsOf es

/-- The parts sent on the channel among some events. -/
def resultsOf : List Event → List part
  | [] => []
  | Event.put _ _ _ :: es => resultsOf es
  | Event.result p :: es => p :: resultsOf es
  | Event.panic :: es => resultsOf es

/-- The comparison `UploadFile` hands to `sort.Slice`. -/
def lessPart (a b : part) : Bool := decide (atoi a.PartNumber < atoi b.PartNumber)

/-! ## UploadFile -/

/-- The fields `UploadFile` reads from the answer of the metadata call. -/
structure MetaResponse where
  phase : String
  fileID : String
  params : ossArgs
deriving DecidableEq, Repr

/-- How the initiate call of `beforeUpload` ends. -/
inductive InitiateOutcome where
  | newRequestErr : InitiateOutcome
  | doErr : InitiateOutcome
  | readErr : InitiateOutcome
  | xmlErr : InitiateOutcome
  | ok (uploadId : String) : InitiateOutcome
deriving DecidableEq, Repr

/-- How the complete call of `afterUpload` ends. -/
inductive FinalizeOutcome where
  | marshalErr (e : String) : FinalizeOutcome
  | newRequestErr (e : String) : FinalizeOutcome
  | doErr (e : String) : FinalizeOutcome
  | readErr (e : String) : FinalizeOutcome
  | ok : FinalizeOutcome
deriving DecidableEq, Repr

/-- A request handed to an HTTP client. -/
inductive NetEvent where
  | metadata : NetEvent
  | initiate : NetEvent
  | put (uploadId : String) (partNumber offset n : Int) : NetEvent
  | finalize (uploadId : String) (parts : List part) : NetEvent
deriving DecidableEq, Repr

/-- How a call of `UploadFile` ends: with Go `("", err)`, with `(fileID, nil)`, or
with the process ended by the panic of a worker. -/
inductive Outcome where
  | err (e : String) : Outcome
  | ok (fileID : String) : Outcome
  | panic : Outcome
deriving DecidableEq, Repr

/-- Everything outside the process that one call of `UploadFile` meets. -/
structure World where
  /-- Answer of `os.Stat(path)`: an error or the file size. -/
  stat : Except String Int
  /-- Answer of `ph.HashFromPath(path)`. -/
  hash : Except String String
  /-- Error of `jsoniter.Marshal`, if any. -/
  marshalErr : Option String
  /-- Error of `http.NewRequest` for the metadata call, if any. -/
  newRequestErr : Option String
  /-- Answer of `p.sendWithErrHandle(req, bs)`, with the fields read from it. -/
  send : Except String MetaResponse
  /-- The initiate call. -/
  initiate : InitiateOutcome
  /-- Error of `os.Open(path)`, if any. -/
  openErr : Option String
  /-- The answers to each worker. -/
  workers : Nat → ChunkIO
  /-- The order in which the parts of the workers come out of the channel. -/
  arrival : List (List part) → List part
  /-- The complete call. -/
  finalize : FinalizeOutcome

/-- The largest capacity Go `make(chan part, n)` accepts on 64-bit platforms: the
runtime panics with `makechan: size out of range` for `n < 0` and when the buffer,
32 bytes per `part`, and the channel header of 104 bytes (Go 1.23; 96 bytes before)
exceed `maxAlloc`. -/
def maxChanCap : Int := 2 ^ 43 - 4

/-- Go `beforeUpload`: the upload id, `""` after any failure, and the request made. -/
def beforeUpload (w : World) : String × List NetEvent :=
  match w.initiate with
  | InitiateOutcome.newRequestErr => ("", [])
  | InitiateOutcome.doErr => ("", [NetEvent.initiate])
  | InitiateOutcome.readErr => ("", [NetEvent.initiate])
  | InitiateOutcome.xmlErr => ("", [NetEvent.initiate])
  | InitiateOutcome.ok uploadId => (uploadId, [NetEvent.initiate])

/-- Go `afterUpload`: its error, if any, and the request made. -/
def afterUpload (w : World) (args : List part) (uploadId : String) :
    Option String × List NetEvent :=
  match w.finalize with
  | FinalizeOutcome.marshalErr e => (some e, [])
  | FinalizeOutcome.newRequestErr e => (some e, [])
  | FinalizeOutcome.doErr e => (some e, [NetEvent.finalize uploadId args])
  | FinalizeOutcome.readErr e => (some e, [NetEvent.finalize uploadId args])
  | FinalizeOutcome.ok => (none, [NetEvent.finalize uploadId args])

/-- The PUT requests of the workers as requests of the upload `uploadId`. -/
def netPuts (uploadId : String) (es : List Event) : List NetEvent :=
  (putsOf es).map (fun x => NetEvent.put uploadId x.1 x.2.1 x.2.2)

/-- Go `UploadFile`: what it returns and the requests it makes, the PUT requests
listed worker by worker; `none` when a worker does not finish within `fuel` passes,
so that `wait.Wait()` does not return. A panic ends the process: at
`make(chan part, Concurrent)` for a capacity out of range, or in a worker, and then
every worker that gets past its early return panics at the same `make`, before any
PUT. `W` is the package variable `Concurrent`. The arguments `parentID` and `path`
reach the code only through the calls that `w` answers. -/
def UploadFile (w : World) (W : Int) (fuel : Nat) : Option (Outcome × List NetEvent) :=
  match w.stat with
  | Except.error e => some (Outcome.err e, [])
  | Except.ok fileSize =>
    match w.hash with
    | Except.error e => some (Outcome.err e, [])
    | Except.ok _ =>
      match w.marshalErr with
      | some e => some (Outcome.err e, [])
      | none =>
        match w.newRequestErr with
        | some e => some (Outcome.err e, [])
        | none =>
          match w.send with
          | Except.error e => some (Outcome.err e, [NetEvent.metadata])
          | Except.ok resp =>
            if resp.phase = "PHASE_TYPE_COMPLETE" then
              some (Outcome.ok resp.fileID, [NetEvent.metadata])
            else
              -- "PHASE_TYPE_PENDING" and every other phase leave the switch
              match w.openErr with
              | some e => some (Outcome.err e, NetEvent.metadata :: (beforeUpload w).2)
              | none =>
                -- `ch := make(chan part, Concurrent)`
                if W < 0 ∨ maxChanCap < W then
                  some (Outcome.panic, NetEvent.metadata :: (beforeUpload w).2)
                else
                match workerPool w.workers (chunkSizeOf fileSize) fileSize W fuel with
                | none => none
                | some traces =>
                  if Event.panic ∈ traces.flatten then
                    some (Outcome.panic, NetEvent.metadata :: (beforeUpload w).2)
                  else
                  let uploadId := (beforeUpload w).1
                  let donePartSlice := w.arrival (traces.map resultsOf)
                  let sorted := sortSlice lessPart donePartSlice
                  match (afterUpload w sorted uploadId).1 with
                  | some e =>
                    some (Outcome.err e, NetEvent.metadata :: (beforeUpload w).2
                      ++ netPuts uploadId traces.flatten ++ (afterUpload w sorted uploadId).2)
                  | none =>
                    some (Outcome.ok resp.fileID, NetEvent.metadata :: (beforeUpload w).2
                      ++ netPuts uploadId traces.flatten ++ (afterUpload w sorted uploadId).2)

/-! ## hmacAuthorization -/

/-- The functions of the Go standard library that `hmacAuthorization` calls and that
only transform data. `Time` stands for `time.Time`. -/
structure Stdlib (Time : Type) where
  /-- Go `strings.ToLower`. -/
  toLower : String → String
  /-- Go `t.UTC().Format(http.TimeFormat)`. -/
  formatHTTP : Time → String
  /-- HMAC-SHA1, `hmac.New(sha1.New, []byte(key))`, `Write([]byte(msg))`, `Sum(nil)`. -/
  hmacSha1 : (key msg : String) → List Nat
  /-- Go `base64.StdEncoding.EncodeToString`. -/
  base64 : List Nat → String

/-- The fields of `*http.Request` that `hmacAuthorization` reads. `Header` is the map
`req.Header` listed in the order in which `range` visits it. -/
structure Request where
  Method : String
  Header : List (String × List String)
  Path : String
  RawQuery : String
deriving DecidableEq, Repr

/-- Go `req.Header.Get(key)` for a `key` in canonical form: the first value stored
under the key, `""` when there is none. -/
def headerGet (h : List (String × List String)) (key : String) : String :=
  match h.lookup key with
  | some (v :: _) => v
  | _ => ""

/-- The loop `for k, v := range req.Header` of `hmacAuthorization`. -/
def collectHeaders {Time : Type} (lib : Stdlib Time) :
    List (String × List String) → List header
  | [] => []
  | (k, v) :: rest =>
    if stringsContains (lib.toLower k) "x-oss-" = true ∧ 0 < v.length then
      ⟨lib.toLower k, v.headD ""⟩ :: collectHeaders lib rest
    else collectHeaders lib rest

/-- The comparison `hmacAuthorization` hands to `sort.Slice`: `key < key` on Go
strings, the order of the byte sequences, which for UTF-8 text is the order of the
character sequences. -/
def lessHeader (a b : header) : Bool := decide (a.key.data < b.key.data)

/-- The text `hmacAuthorization` builds in `stringBuilder`. -/
def canonicalString {Time : Type} (lib : Stdlib Time) (req : Request)
    (body : Option (List Nat)) (time : Time) (args : ossArgs) : String :=
  let date := lib.formatHTTP time
  let s1 := req.Method ++ "\n"
  let s2 := match body with
    | none => s1 ++ "\n"
    | some _ => s1 ++ "\n"
  let s3 := s2 ++ (headerGet req.Header "Content-Type" ++ "\n")
  let s4 := s3 ++ (date ++ "\n")
  let headerSlice := sortSlice lessHeader (collectHeaders lib req.Header)
  let s5 := headerSlice.foldl (fun s hd => s ++ (hd.key ++ ":" ++ hd.val ++ "\n")) s4
  s5 ++ ("/" ++ args.Bucket ++ req.Path ++ "?" ++ req.RawQuery)

/-- Go `hmacAuthorization`. -/
def hmacAuthorization {Time : Type} (lib : Stdlib Time) (req : Request)
    (body : Option (List Nat)) (time : Time) (args : ossArgs) : String :=
  lib.base64 (lib.hmacSha1 args.AccessKeySecret (canonicalString lib req body time args))

/-- The header selection as the specification words it: names that, in lower case,
start with `"x-oss-"`. -/
def collectHeadersSpec {Time : Type} (lib : Stdlib Time) :
    List (String × List String) → List header
  | [] => []
  | (k, v) :: rest =>
    if "x-oss-".data.isPrefixOf (lib.toLower k).data = true ∧ 0 < v.length then
      ⟨lib.toLower k, v.headD ""⟩ :: collectHeadersSpec lib rest
    else collectHeadersSpec lib rest

/-! ## The standard library functions written out -/

/-- The UTF-8 bytes of one character. -/
def utf8Char (c : Char) : List Nat :=
  if c.toNat < 128 then [c.toNat]
  else if c.toNat < 2048 then [192 + c.toNat / 64, 128 + c.toNat % 64]
  else if c.toNat < 65536 then
    [224 + c.toNat / 4096, 128 + c.toNat / 64 % 64, 128 + c.toNat % 64]
  else
    [240 + c.toNat / 262144, 128 + c.toNat / 4096 % 64, 128 + c.toNat / 64 % 64,
      128 + c.toNat % 64]

/-- Go `[]byte(s)`. -/
def bytesOf (s : String) : List Nat := s.data.flatMap utf8Char

/-- Rotation of a 32-bit word to the left. -/
def rotl32 (x n : Nat) : Nat := ((x <<< n) ||| (x >>> (32 - n))) % 2 ^ 32

/-- The message padded to whole 64-byte blocks as SHA-1 prescribes. -/
def sha1Pad (msg : List Nat) : List Nat :=
  msg ++ 128 :: List.replicate ((119 - msg.length % 64) % 64) 0 ++
    (List.range 8).map (fun i => (msg.length * 8) >>> (8 * (7 - i)) % 256)

/-- Big-endian 32-bit words of a byte list. -/
def wordsOf : List Nat → List Nat
  | a :: b :: c :: d :: rest => (a * 16777216 + b * 65536 + c * 256 + d) :: wordsOf rest
  | _ => []

/-- The message schedule: `n` more words, `rev` holding the words so far, last first. -/
def sha1Extend : Nat → List Nat → List Nat
  | 0, rev => rev
  | n + 1, rev =>
    match rotl32 (rev.getD 2 0 ^^^ rev.getD 7 0 ^^^ rev.getD 13 0 ^^^ rev.getD 15 0) 1 with
    | 0 => sha1Extend n (0 :: rev)
    | w + 1 => sha1Extend n ((w + 1) :: rev)

/-- One round of SHA-1 on the packed state `a, b, c, d, e` (32 bits each). -/
def sha1Round (i w s : Nat) : Nat :=
  let a := s / 2 ^ 128
  let b := s / 2 ^ 96 % 2 ^ 32
  let c := s / 2 ^ 64 % 2 ^ 32
  let d := s / 2 ^ 32 % 2 ^ 32
  let e := s % 2 ^ 32
  let f :=
    if i < 20 then (b &&& c) ||| ((b ^^^ 4294967295) &&& d)
    else if i < 40 then b ^^^ c ^^^ d
    else if i < 60 then (b &&& c) ||| (b &&& d) ||| (c &&& d)
    else b ^^^ c ^^^ d
  let k :=
    if i < 20 then 1518500249
    else if i < 40 then 1859775393
    else if i < 60 then 2400959708
    else 3395469782
  ((rotl32 a 5 + f + e + k + w) % 2 ^ 32) * 2 ^ 128 + a * 2 ^ 96 + rotl32 b 30 * 2 ^ 64
    + c * 2 ^ 32 + d

/-- The 80 rounds over the schedule `ws`, from round `i` on. -/
def sha1Rounds : List Nat → Nat → Nat → Nat
  | [], _, s => s
  | w :: ws, i, s =>
    match sha1Round i w s with
    | 0 => sha1Rounds ws (i + 1) 0
    | s1 + 1 => sha1Rounds ws (i + 1) (s1 + 1)

/-- Word-wise sum modulo `2 ^ 32` of two packed states. -/
def sha1Add (s t : Nat) : Nat :=
  ((s / 2 ^ 128 + t / 2 ^ 128) % 2 ^ 32) * 2 ^ 128
    + ((s / 2 ^ 96 % 2 ^ 32 + t / 2 ^ 96 % 2 ^ 32) % 2 ^ 32) * 2 ^ 96
    + ((s / 2 ^ 64 % 2 ^ 32 + t / 2 ^ 64 % 2 ^ 32) % 2 ^ 32) * 2 ^ 64
    + ((s / 2 ^ 32 % 2 ^ 32 + t / 2 ^ 32 % 2 ^ 32) % 2 ^ 32) * 2 ^ 32
    + (s % 2 ^ 32 + t % 2 ^ 32) % 2 ^ 32

/-- The blocks of 16 words each, folded into the state. -/
def sha1Blocks : Nat → List Nat → Nat → Nat
  | 0, _, h => h
  | n + 1, ws, h =>
    match sha1Add h (sha1Rounds (sha1Extend 64 (ws.take 16).reverse).reverse 0 h) with
    | 0 => sha1Blocks n (ws.drop 16) 0
    | h1 + 1 => sha1Blocks n (ws.drop 16) (h1 + 1)

/-- The 20 bytes of a packed state. -/
def sha1Bytes (h : Nat) : List Nat := (List.range 20).map (fun i => h >>> (8 * (19 - i)) % 256)

/-- SHA-1 of a byte list: the 20 bytes of the digest. -/
def sha1 (msg : List Nat) : List Nat :=
  match sha1Blocks ((sha1Pad msg).length / 64) (wordsOf (sha1Pad msg))
      (1732584193 * 2 ^ 128 + 4023233417 * 2 ^ 96 + 2562383102 * 2 ^ 64 + 271733878 * 2 ^ 32
        + 3285377520) with
  | 0 => sha1Bytes 0
  | h + 1 => sha1Bytes (h + 1)

/-- HMAC-SHA1 of `msg` under `key`, both byte lists. -/
def hmacSha1Bytes (key msg : List Nat) : List Nat :=
  let k0 := if 64 < key.length then sha1 key else key
  let k := k0 ++ List.replicate (64 - k0.length) 0
  sha1 (k.map (fun b => b ^^^ 92) ++ sha1 (k.map (fun b => b ^^^ 54) ++ msg))

/-- One character of the base64 alphabet. -/
def b64Char (n : Nat) : Char :=
  "ABCDEFGHIJKLMNOPQRSTUVWXYZabcdefghijklmnopqrstuvwxyz0123456789+/".data.getD n 'A'

/-- Go `base64.StdEncoding.EncodeToString`. -/
def base64Chars : List Nat → List Char
  | a :: b :: c :: rest =>
    b64Char (a / 4) :: b64Char (a % 4 * 16 + b / 16) :: b64Char (b % 16 * 4 + c / 64)
      :: b64Char (c % 64) :: base64Chars rest
  | [a, b] => [b64Char (a / 4), b64Char (a % 4 * 16 + b / 16), b64Char (b % 16 * 4), '=']
  | [a] => [b64Char (a / 4), b64Char (a % 4 * 16), '=', '=']
  | [] => []

/-- Go `strings.ToLower` on ASCII text. Characters outside ASCII are left as they are
here; Go also maps the upper-case letters of other scripts. -/
def asciiLower (s : String) : String :=
  String.mk (s.data.map (fun c =>
    if 65 ≤ c.toNat ∧ c.toNat ≤ 90 then Char.ofNat (c.toNat + 32) else c))

/-- Two decimal digits. -/
def pad2 (n : Nat) : List Char := [decChar (n / 10), decChar n]

/-- Go `time.Unix(secs, 0).UTC().Format(http.TimeFormat)`, the layout
`"Mon, 02 Jan 2006 15:04:05 GMT"`, for years 0 to 9999 of the Gregorian calendar. -/
def httpDate (secs : Int) : String :=
  let days := secs / 86400
  let rem := (secs % 86400).toNat
  let z := days + 719468
  let era := z / 146097
  let doe := (z - era * 146097).toNat
  let yoe := (doe - doe / 1460 + doe / 36524 - doe / 146096) / 365
  let doy := doe - (365 * yoe + yoe / 4 - yoe / 100)
  let mp := (5 * doy + 2) / 153
  let d := doy - (153 * mp + 2) / 5 + 1
  let m := if mp < 10 then mp + 3 else mp - 9
  let y := ((yoe : Int) + era * 400 + (if m ≤ 2 then 1 else 0)).toNat
  let wd := ((days + 4) % 7).toNat
  String.mk (
    (["Sun", "Mon", "Tue", "Wed", "Thu", "Fri", "Sat"].getD wd "").data ++ [',', ' '] ++
    pad2 d ++ [' '] ++
    (["Jan", "Feb", "Mar", "Apr", "May", "Jun", "Jul", "Aug", "Sep", "Oct", "Nov",
      "Dec"].getD (m - 1) "").data ++ [' '] ++
    pad2 (y / 100) ++ pad2 y ++ [' '] ++
    pad2 (rem / 3600) ++ [':'] ++ pad2 (rem / 60 % 60) ++ [':'] ++ pad2 (rem % 60) ++
    [' ', 'G', 'M', 'T'])

/-- The standard library functions as Go computes them, with `time.Time` given in
seconds since the Unix epoch. -/
def goStdlib : Stdlib Int where
  toLower := asciiLower
  formatHTTP := httpDate
  hmacSha1 := fun key msg => hmacSha1Bytes (bytesOf key) (bytesOf msg)
  base64 := fun bs => String.mk (base64Chars bs)

/-! ## AuthCaptchaToken -/

/-- Go `const package_name`. -/
def package_name : String := "com.pikcloud.pikpak"

/-- Go `const client_version`. -/
def client_version : String := "1.21.0"

/-- Go `type md5Obj struct`. -/
structure md5Obj where
  Alg : String
  Salt : String
deriving DecidableEq, Repr

/-- Go `var md5Arr`, as `init` decodes it from the JSON text `md5_obj`. -/
def md5Arr : List md5Obj :=
  [⟨"md5", ""⟩,
   ⟨"md5", "E32cSkYXC2bciKJGxRsE8ZgwmH/YwkvpD6/O9guSOa2irCwciH4xPHaH"⟩,
   ⟨"md5", "QtqgfMgHP2TFl"⟩,
   ⟨"md5", "zOKgHT56L7nIzFzDpUGhpWFrgP53m3G6ML"⟩,
   ⟨"md5", "S"⟩,
   ⟨"md5", "THxpsktzfFXizUv7DK1y/N7NZ1WhayViluBEvAJJ8bA1Wr6"⟩,
   ⟨"md5", "y9PXH3xGUhG/zQI8CaapRw2LhldCaFM9CRlKpZXJvj+pifu"⟩,
   ⟨"md5", "+RaaG7T8FRTI4cP019N5y9ofLyHE9ySFUr"⟩,
   ⟨"md5", "6Pf1l8UTeuzYldGtb/d"⟩]

/-- Go `[16]byte`, the type of `md5.Sum`. -/
structure Digest where
  bytes : List (Fin 256)
  size : bytes.length = 16

/-- One hexadecimal digit in lower case. -/
def hexChar (d : Nat) : Char :=
  if d % 16 < 10 then Char.ofNat (48 + d % 16) else Char.ofNat (87 + d % 16)

/-- Go `fmt.Sprintf("%x", d)` for a byte array: two digits per byte. -/
def sprintfX (d : Digest) : String :=
  String.mk (d.bytes.flatMap (fun b => [hexChar (b.val / 16), hexChar (b.val % 16)]))

/-- The loop `for i := 0; i < len(md5Arr); i++` of `AuthCaptchaToken` over the table
entries not yet visited; `md5Sum s` is Go `md5.Sum([]byte(s))`. -/
def captchaLoop (md5Sum : String → Digest) : List md5Obj → String → String
  | [], str => str
  | e :: rest, str =>
    if e.Alg = "md5" then captchaLoop md5Sum rest (sprintfX (md5Sum (str ++ e.Salt)))
    else captchaLoop md5Sum rest str

/-- The value `AuthCaptchaToken` stores under `captcha_sign`; `nowMilli` is
`time.Now().UnixMilli()`, `clientID` the constant of that name, `table` the variable
`md5Arr`. -/
def captchaSign (md5Sum : String → Digest) (table : List md5Obj)
    (clientID deviceId : String) (nowMilli : Int) : String :=
  "1." ++ captchaLoop md5Sum table
    (clientID ++ client_version ++ package_name ++ deviceId ++ sprintfD nowMilli)

/-! ## MD5 written out -/

/-- The constants `floor (2 ^ 32 * |sin (i + 1)|)` of MD5 (RFC 1321). -/
def md5K : List Nat :=
  [
    3614090360, 3905402710, 606105819, 3250441966, 4118548399, 1200080426,
    2821735955, 4249261313, 1770035416, 2336552879, 4294925233, 2304563134,
    1804603682, 4254626195, 2792965006, 1236535329, 4129170786, 3225465664,
    643717713, 3921069994, 3593408605, 38016083, 3634488961, 3889429448,
    568446438, 3275163606, 4107603335, 1163531501, 2850285829, 4243563512,
    1735328473, 2368359562, 4294588738, 2272392833, 1839030562, 4259657740,
    2763975236, 1272893353, 4139469664, 3200236656, 681279174, 3936430074,
    3572445317, 76029189, 3654602809, 3873151461, 530742520, 3299628645,
    4096336452, 1126891415, 2878612391, 4237533241, 1700485571, 2399980690,
    4293915773, 2240044497, 1873313359, 4264355552, 2734768916, 1309151649,
    4149444226, 3174756917, 718787259, 3951481745]

/-- The rotation amounts of the 64 steps of MD5. -/
def md5S : List Nat :=
  [
    7, 12, 17, 22, 7, 12, 17, 22, 7, 12, 17, 22, 7, 12, 17, 22,
    5, 9, 14, 20, 5, 9, 14, 20, 5, 9, 14, 20, 5, 9, 14, 20,
    4, 11, 16, 23, 4, 11, 16, 23, 4, 11, 16, 23, 4, 11, 16, 23,
    6, 10, 15, 21, 6, 10, 15, 21, 6, 10, 15, 21, 6, 10, 15, 21]

/-- The message padded to whole 64-byte blocks as MD5 prescribes: the length in bits
follows, low byte first. -/
def md5Pad (msg : List Nat) : List Nat :=
  msg ++ 128 :: List.replicate ((119 - msg.length % 64) % 64) 0 ++
    (List.range 8).map (fun i => (msg.length * 8) >>> (8 * i) % 256)

/-- Little-endian 32-bit words of a byte list. -/
def wordsLE : List Nat → List Nat
  | a :: b :: c :: d :: rest => (a + b * 256 + c * 65536 + d * 16777216) :: wordsLE rest
  | _ => []

/-- One step of MD5 on the packed state `a, b, c, d` (32 bits each) for the block `m`. -/
def md5Step (m : List Nat) (i s : Nat) : Nat :=
  let a := s / 2 ^ 96
  let b := s / 2 ^ 64 % 2 ^ 32
  let c := s / 2 ^ 32 % 2 ^ 32
  let d := s % 2 ^ 32
  let f :=
    if i < 16 then (b &&& c) ||| ((b ^^^ 4294967295) &&& d)
    else if i < 32 then (d &&& b) ||| ((d ^^^ 4294967295) &&& c)
    else if i < 48 then b ^^^ c ^^^ d
    else c ^^^ (b ||| (d ^^^ 4294967295))
  let g :=
    if i < 16 then i
    else if i < 32 then (5 * i + 1) % 16
    else if i < 48 then (3 * i + 5) % 16
    else 7 * i % 16
  d * 2 ^ 96
    + ((b + rotl32 ((f + a + md5K.getD i 0 + m.getD g 0) % 2 ^ 32) (md5S.getD i 0)) % 2 ^ 32)
      * 2 ^ 64
    + b * 2 ^ 32 + c

/-- The steps `i, i + 1, …` of MD5, `n` of them. -/
def md5Steps (m : List Nat) : Nat → Nat → Nat → Nat
  | 0, _, s => s
  | n + 1, i, s =>
    match md5Step m i s with
    | 0 => md5Steps m n (i + 1) 0
    | s1 + 1 => md5Steps m n (i + 1) (s1 + 1)

/-- Word-wise sum modulo `2 ^ 32` of two packed MD5 states. -/
def md5Add (s t : Nat) : Nat :=
  ((s / 2 ^ 96 + t / 2 ^ 96) % 2 ^ 32) * 2 ^ 96
    + ((s / 2 ^ 64 % 2 ^ 32 + t / 2 ^ 64 % 2 ^ 32) % 2 ^ 32) * 2 ^ 64
    + ((s / 2 ^ 32 % 2 ^ 32 + t / 2 ^ 32 % 2 ^ 32) % 2 ^ 32) * 2 ^ 32
    + (s % 2 ^ 32 + t % 2 ^ 32) % 2 ^ 32

/-- The blocks of 16 words each, folded into the state. -/
def md5Blocks : Nat → List Nat → Nat → Nat
  | 0, _, h => h
  | n + 1, ws, h =>
    match md5Add h (md5Steps (ws.take 16) 64 0 h) with
    | 0 => md5Blocks n (ws.drop 16) 0
    | h1 + 1 => md5Blocks n (ws.drop 16) (h1 + 1)

/-- The final state of MD5 for a byte list, packed as `a, b, c, d`. -/
def md5State (msg : List Nat) : Nat :=
  md5Blocks ((md5Pad msg).length / 64) (wordsLE (md5Pad msg))
    (1732584193 * 2 ^ 96 + 4023233417 * 2 ^ 64 + 2562383102 * 2 ^ 32 + 271733878)

/-- The 16 bytes of a packed MD5 state: the words `a, b, c, d`, low byte first. -/
def md5Bytes (h : Nat) : List (Fin 256) :=
  (List.range 16).map (fun i =>
    ⟨h / 2 ^ (32 * (3 - i / 4)) / 2 ^ (8 * (i % 4)) % 256, Nat.mod_lt _ (by norm_num)⟩)

/-- Go `md5.Sum([]byte(s))` as RFC 1321 defines it. -/
def goMd5Sum (s : String) : Digest :=
  match md5State (bytesOf s) with
  | 0 => ⟨md5Bytes 0, by simp [md5Bytes]⟩
  | h + 1 => ⟨md5Bytes (h + 1), by simp [md5Bytes]⟩

/-! ## Auxiliary definitions of the proofs -/

/-- The part indices `p, p + W, p + 2 W, …` below `count`, at most `fuel` of them. -/
def strideIdx (W count : Nat) : Nat → Nat → List Nat
  | 0, _ => []
  | fuel + 1, p => if p < count then p :: strideIdx W count fuel (p + W) else []

/-- The PUT of the part with index `p` when the whole range is read: part number
`p + 1`, offset `p * cs`, length `min cs (fileSize - p * cs)`. -/
def putOfIdx (cs fileSize : Int) (p : Nat) : Int × Int × Int :=
  ((p : Int) + 1, (p : Int) * cs, min cs (fileSize - (p : Int) * cs))

/-! ## Inputs of the examples -/

/-- Credentials of the examples. -/
def exampleArgs : ossArgs := ⟨"bucket", "id", "secret", "oss.example.com", "key", "token"⟩

/-- A request whose header `Max-Oss-Age` holds the marker `x-oss-` in its lower-case
name from the third character on. -/
def reqMaxOssAge : Request :=
  ⟨"PUT", [("Content-Type", ["application/octet-stream"]), ("Max-Oss-Age", ["1"]),
    ("X-Oss-Security-Token", ["token"])], "/key", "partNumber=1&uploadId=U"⟩

/-- A request whose header map holds the names `X-Oss-A` and `x-oss-a`, visited in
this order. -/
def reqTwoCases : Request :=
  ⟨"PUT", [("Content-Type", ["application/octet-stream"]), ("X-Oss-A", ["1"]),
    ("x-oss-a", ["2"])], "/key", "partNumber=1&uploadId=U"⟩

/-- The request `reqTwoCases` with the same header map visited in another order. -/
def reqTwoCasesSwapped : Request :=
  ⟨"PUT", [("x-oss-a", ["2"]), ("Content-Type", ["application/octet-stream"]),
    ("X-Oss-A", ["1"])], "/key", "partNumber=1&uploadId=U"⟩

/-- A request with two vendor headers, `X-Oss-Security-Token` visited before
`X-Oss-Meta-Author`. -/
def reqTwoVendor : Request :=
  ⟨"PUT", [("X-Oss-Security-Token", ["token"]), ("Content-Type", ["application/octet-stream"]),
    ("X-Oss-Meta-Author", ["a"]), ("Date", ["Thu, 29 Feb 2024 23:59:59 GMT"])], "/key",
    "partNumber=1&uploadId=U"⟩

/-- The request `reqTwoVendor` with the same header map visited in another order,
`X-Oss-Meta-Author` before `X-Oss-Security-Token`. -/
def reqTwoVendorSwapped : Request :=
  ⟨"PUT", [("Date", ["Thu, 29 Feb 2024 23:59:59 GMT"]), ("X-Oss-Meta-Author", ["a"]),
    ("Content-Type", ["application/octet-stream"]), ("X-Oss-Security-Token", ["token"])],
    "/key", "partNumber=1&uploadId=U"⟩

/-- Answers of a healthy environment: every read returns the whole range that the
file of `fileSize` bytes still holds (no byte at a negative offset, which `ReadAt`
rejects), every request is built and every PUT is answered with the tag `"etag"` in
quotes. -/
def ioFull (cs fileSize : Int) : ChunkIO :=
  ⟨fun _ off => if off < 0 then 0 else min cs (fileSize - off), fun _ _ => false,
    fun _ _ _ _ => some "\"etag\""⟩

/-- Answers of an environment whose reads are cut short after one byte. -/
def ioOneByte : ChunkIO :=
  ⟨fun _ _ => 1, fun _ _ => false, fun _ _ _ _ => some "\"etag\""⟩

/-- Answers of an environment whose first read returns no byte. -/
def ioFirstReadEmpty (cs fileSize : Int) : ChunkIO :=
  ⟨fun t off => if t = 0 then 0 else min cs (fileSize - off), fun _ _ => false,
    fun _ _ _ _ => some "\"etag\""⟩

/-- Answers of an environment in which the first PUT fails in transit and the second
one succeeds. -/
def ioPutFailsOnce (cs fileSize : Int) : ChunkIO :=
  ⟨fun _ off => min cs (fileSize - off), fun _ _ => false,
    fun t _ _ _ => if t = 0 then none else some "\"etag\""⟩

/-- Answers of an environment in which every PUT fails in transit. -/
def ioPutFails (cs fileSize : Int) : ChunkIO :=
  ⟨fun _ off => min cs (fileSize - off), fun _ _ => false, fun _ _ _ _ => none⟩

/-- The world of an upload of a file of 300000 bytes (two chunks of 262144 bytes) in
which every call succeeds; the parts arrive worker by worker. -/
def worldOk : World where
  stat := Except.ok 300000
  hash := Except.ok "hash"
  marshalErr := none
  newRequestErr := none
  send := Except.ok ⟨"PHASE_TYPE_PENDING", "file-id", exampleArgs⟩
  initiate := InitiateOutcome.ok "U"
  openErr := none
  workers := fun _ => ioFull 262144 300000
  arrival := fun outs => outs.flatten
  finalize := FinalizeOutcome.ok

/-- The world `worldOk`, except that the read of the first chunk returns no byte. -/
def worldReadEmpty : World :=
  { worldOk with workers := fun i => if i = 0 then ioFirstReadEmpty 262144 300000
                                      else ioFull 262144 300000 }

/-- The world `worldOk`, except that the initiate call fails in transit. -/
def worldInitiateFails : World :=
  { worldOk with initiate := InitiateOutcome.doErr }

/-- The world `worldOk`, except that the file has 2900000000000000000 bytes, for which
the chunk size exceeds the allocation limit. -/
def worldHuge : World :=
  { worldOk with stat := Except.ok 2900000000000000000
                 workers := fun _ => ioFull (chunkSizeOf 2900000000000000000)
                   2900000000000000000 }


/-! ## Theorems -/
set_option maxRecDepth 100000

theorem scaleUp_sat (fuel a b k0 : Nat) (h : 2 ^ 52 * b ≤ a * 2 ^ (k0 + fuel)) :
    2 ^ 52 * b ≤ a * 2 ^ scaleUp fuel a b k0 := by
  induction fuel generalizing k0 with
  | zero => simpa [scaleUp] using h
  | succ f ih =>
    unfold scaleUp
    split_ifs with hk
    · exact hk
    · apply ih
      have : k0 + 1 + f = k0 + (f + 1) := by omega
      rw [this]; exact h

theorem scaleUp_min (fuel a b k0 j : Nat) (h1 : k0 ≤ j) (h2 : j < scaleUp fuel a b k0) :
    ¬ 2 ^ 52 * b ≤ a * 2 ^ j := by
  induction fuel generalizing k0 with
  | zero => simp [scaleUp] at h2; omega
  | succ f ih =>
    unfold scaleUp at h2
    split_ifs at h2 with hk
    · omega
    · rcases Nat.eq_or_lt_of_le h1 with h | h
      · subst h; exact hk
      · exact ih (k0 + 1) h h2

theorem scaleUp_reaches (a b : Nat) (ha : 0 < a) : 2 ^ 52 * b ≤ a * 2 ^ scaleUp (52 + b) a b 0 := by
  apply scaleUp_sat
  have h1 : b < 2 ^ b := Nat.lt_two_pow b
  have h2 : (2:Nat) ^ (0 + (52 + b)) = 2 ^ 52 * 2 ^ b := by rw [Nat.zero_add, pow_add]
  rw [h2]
  calc 2 ^ 52 * b ≤ 2 ^ 52 * 2 ^ b := Nat.mul_le_mul_left _ h1.le
    _ = 1 * (2 ^ 52 * 2 ^ b) := by ring
    _ ≤ a * (2 ^ 52 * 2 ^ b) := Nat.mul_le_mul_right _ ha

theorem roundHalfEven_one (a : Nat) : roundHalfEven a 1 = a := by
  simp [roundHalfEven, Nat.mod_one]

theorem float64OfNat_exact (n : Nat) (h : n < 2 ^ 53) : float64OfNat n = n := by
  unfold float64OfNat f64round
  by_cases h0 : n = 0
  · simp [h0]
  · have : ¬ 2 ^ 53 * 1 ≤ n := by omega
    simp only [h0, this, if_false, roundHalfEven_one]
    exact Nat.mul_div_cancel _ (by positivity)

theorem ceil_div_round (n : Nat) (h0 : 0 < n) (h : n < 2 ^ 53) :
    ceilToInt64 (float64Div n 10000) = ((n + 9999) / 10000 : Nat) := by
  unfold ceilToInt64 float64Div f64round
  have hn0 : n ≠ 0 := by omega
  have hbig : ¬ 2 ^ 53 * 10000 ≤ n := by omega
  simp only [hn0, hbig, if_false]
  congr 1
  have hP := scaleUp_reaches n 10000 h0
  generalize scaleUp (52 + 10000) n 10000 0 = k at hP
  generalize hT : 2 ^ k = T at hP
  have hTpos : 0 < T := by rw [← hT]; positivity
  -- 2 * T > 10000
  have hT2 : 10000 < 2 * T := by
    by_contra hc
    have : n * T ≤ n * 5000 := Nat.mul_le_mul_left _ (by omega)
    omega
  obtain ⟨q, r, hr, rfl⟩ : ∃ q r, r < 10000 ∧ n = 10000 * q + r :=
    ⟨n / 10000, n % 10000, Nat.mod_lt _ (by norm_num), (Nat.div_add_mod n 10000).symm⟩
  have hdiv : (10000 * q + r + 9999) / 10000 = if r = 0 then q else q + 1 := by
    split_ifs <;> omega
  rw [hdiv]
  have hexp : (10000 * q + r) * T = 10000 * (q * T) + r * T := by ring
  rw [hexp]
  by_cases hr0 : r = 0
  · subst hr0
    simp only [Nat.zero_mul, Nat.add_zero, if_true]
    have hm : roundHalfEven (10000 * (q * T)) 10000 = q * T := by
      unfold roundHalfEven
      simp [Nat.mul_mod_right, Nat.mul_div_cancel_left]
    rw [hm]
    apply Nat.div_eq_of_lt_le
    · omega
    · have : (q + 1) * T = q * T + T := by ring
      omega
  · simp only [hr0, if_false]
    have hrT1 : T ≤ r * T := Nat.le_mul_of_pos_left T (by omega)
    have hrT2 : r * T ≤ 9999 * T := Nat.mul_le_mul_right T (by omega)
    generalize r * T = Y at hrT1 hrT2
    obtain ⟨X, hX⟩ : ∃ X, X = q * T := ⟨_, rfl⟩
    rw [← hX]
    have hq1 : X ≤ (10000 * X + Y) / 10000 := by omega
    have hq2 : (10000 * X + Y) / 10000 < X + T := by omega
    have hlo : X < roundHalfEven (10000 * X + Y) 10000 := by
      unfold roundHalfEven
      split_ifs <;> omega
    have hhi : roundHalfEven (10000 * X + Y) 10000 ≤ X + T := by
      unfold roundHalfEven
      split_ifs <;> omega
    generalize roundHalfEven (10000 * X + Y) 10000 = m at hlo hhi
    have e1 : (q + 1) * T = X + T := by rw [hX]; ring
    have e2 : (q + 1 + 1) * T = X + T + T := by rw [hX]; ring
    apply Nat.div_eq_of_lt_le
    · omega
    · show m + T - 1 < (q + 1 + 1) * T
      omega

theorem chunkSizeOf_exact (fileSize : Int) (h0 : 0 ≤ fileSize) (h : fileSize < 2 ^ 53) :
    chunkSizeOf fileSize = max (2 ^ 18) ((fileSize + 9999) / 10000) := by
  unfold chunkSizeOf defaultChunkSize
  by_cases hz : fileSize ≤ 0
  · have : fileSize = 0 := by omega
    subst this
    simp
  · simp only [hz, if_false]
    obtain ⟨n, rfl⟩ := Int.eq_ofNat_of_zero_le h0
    have hn : n < 2 ^ 53 := by exact_mod_cast h
    have hn0 : 0 < n := by omega
    simp only [Int.toNat_ofNat, float64OfNat_exact n hn, ceil_div_round n hn0 hn]
    have : ((n : Int) + 9999) / 10000 = (((n + 9999) / 10000 : Nat) : Int) := by push_cast; rfl
    rw [this]
    split_ifs with hc
    · rw [max_eq_left]; omega
    · rw [max_eq_right]; omega


theorem partCount_spec (fileSize cs : Int) (p : Nat) (hcs : 0 < cs) :
    p < partCount fileSize cs ↔ (p : Int) * cs < fileSize := by
  unfold partCount
  rw [Int.lt_toNat]
  constructor
  · intro h
    have h1 : (p : Int) + 1 ≤ (fileSize + cs - 1) / cs := h
    have h2 := (Int.le_ediv_iff_mul_le hcs).1 h1
    nlinarith
  · intro h
    have h2 : ((p : Int) + 1) * cs ≤ fileSize + cs - 1 := by nlinarith
    have := (Int.le_ediv_iff_mul_le hcs).2 h2
    omega

theorem partCount_chunkSizeOf_le (fileSize : Int) (h0 : 0 ≤ fileSize) (h : fileSize < 2 ^ 53) :
    partCount fileSize (chunkSizeOf fileSize) ≤ 10000 := by
  have hcs := chunkSizeOf_exact fileSize h0 h
  have h1 : (2:Int) ^ 18 ≤ chunkSizeOf fileSize := by rw [hcs]; exact le_max_left _ _
  have h2 : (fileSize + 9999) / 10000 ≤ chunkSizeOf fileSize := by rw [hcs]; exact le_max_right _ _
  have hpos : 0 < chunkSizeOf fileSize := by
    have : (0:Int) < 2 ^ 18 := by norm_num
    omega
  by_contra hc
  have hlt : (10000 : Nat) < partCount fileSize (chunkSizeOf fileSize) := by omega
  have := (partCount_spec fileSize (chunkSizeOf fileSize) 10000 hpos).1 hlt
  have h3 : fileSize ≤ 10000 * chunkSizeOf fileSize := by omega
  push_cast at this
  omega


/-! ### Stride partition -/

theorem wrap64_id (x : Int) (h1 : -(2 ^ 63) ≤ x) (h2 : x < 2 ^ 63) : wrap64 x = x := by
  unfold wrap64
  norm_num at h1 h2 ⊢
  omega

theorem putsOf_append (a b : List Event) : putsOf (a ++ b) = putsOf a ++ putsOf b := by
  induction a with
  | nil => rfl
  | cons e es ih => cases e <;> simp [putsOf, ih]

theorem resultsOf_append (a b : List Event) :
    resultsOf (a ++ b) = resultsOf a ++ resultsOf b := by
  induction a with
  | nil => rfl
  | cons e es ih => cases e <;> simp [resultsOf, ih]

theorem putsOf_flatten (L : List (List Event)) :
    putsOf L.flatten = (L.map putsOf).flatten := by
  induction L with
  | nil => rfl
  | cons l L ih => simp [putsOf_append, ih]

theorem resultsOf_flatten (L : List (List Event)) :
    resultsOf L.flatten = (L.map resultsOf).flatten := by
  induction L with
  | nil => rfl
  | cons l L ih => simp [resultsOf_append, ih]

theorem allSome_map_some {α β : Type} (l : List α) (g : α → Option β) (f : α → β)
    (h : ∀ a ∈ l, g a = some (f a)) : allSome (l.map g) = some (l.map f) := by
  induction l with
  | nil => rfl
  | cons a l ih =>
    have ha := h a (List.mem_cons_self _ _)
    have hl := ih (fun b hb => h b (List.mem_cons_of_mem _ hb))
    simp [allSome, ha, hl]

theorem strideIdx_mem (W count : Nat) (fuel p x : Nat) (h : x ∈ strideIdx W count fuel p) :
    x < count ∧ p ≤ x ∧ x % W = p % W := by
  induction fuel generalizing p with
  | zero => simp [strideIdx] at h
  | succ f ih =>
    unfold strideIdx at h
    split_ifs at h with hp
    · rcases List.mem_cons.1 h with h | h
      · subst h; exact ⟨hp, le_refl _, rfl⟩
      · obtain ⟨h1, h2, h3⟩ := ih _ h
        refine ⟨h1, by omega, ?_⟩
        rw [h3, Nat.add_mod_right]
    · simp at h

theorem strideIdx_mem_iff (W count : Nat) (hW : 1 ≤ W) (fuel p x : Nat)
    (hfuel : count ≤ fuel + p) :
    x ∈ strideIdx W count fuel p ↔ x < count ∧ p ≤ x ∧ x % W = p % W := by
  constructor
  · exact strideIdx_mem W count fuel p x
  · induction fuel generalizing p with
    | zero => intro ⟨h1, h2, _⟩; omega
    | succ f ih =>
      intro ⟨h1, h2, h3⟩
      unfold strideIdx
      have hp : p < count := by omega
      simp only [hp, if_true, List.mem_cons]
      rcases Nat.eq_or_lt_of_le h2 with h | h
      · left; exact h.symm
      · right
        have hd : W ∣ x - p := Nat.dvd_of_mod_eq_zero (Nat.sub_mod_eq_zero_of_mod_eq h3)
        have hle : W ≤ x - p := Nat.le_of_dvd (by omega) hd
        apply ih (p + W) (by omega)
        refine ⟨h1, by omega, ?_⟩
        rw [h3, Nat.add_mod_right]

theorem strideIdx_nodup (W count : Nat) (hW : 1 ≤ W) (fuel p : Nat) :
    (strideIdx W count fuel p).Nodup := by
  induction fuel generalizing p with
  | zero => simp [strideIdx]
  | succ f ih =>
    unfold strideIdx
    split_ifs with hp
    · refine List.nodup_cons.2 ⟨?_, ih _⟩
      intro hmem
      have := (strideIdx_mem W count f (p + W) p hmem).2.1
      omega
    · exact List.nodup_nil

theorem stride_cover_idx (W count fuel : Nat) (hW : 1 ≤ W) (hfuel : count ≤ fuel) :
    List.Perm ((List.range W).flatMap (fun i => strideIdx W count fuel i)) (List.range count) := by
  apply (List.perm_ext_iff_of_nodup _ (List.nodup_range count)).2
  · intro x
    simp only [List.mem_flatMap, List.mem_range]
    constructor
    · rintro ⟨i, _, hx⟩
      exact (strideIdx_mem W count fuel i x hx).1
    · intro hx
      refine ⟨x % W, Nat.mod_lt _ (by omega), ?_⟩
      rw [strideIdx_mem_iff W count hW fuel (x % W) x (by omega)]
      exact ⟨hx, Nat.mod_le _ _, by rw [Nat.mod_mod]⟩
  · rw [List.nodup_flatMap]
    refine ⟨fun i _ => strideIdx_nodup W count hW fuel i, ?_⟩
    have hpw : List.Pairwise (fun a b : Nat => a < b) (List.range W) := List.pairwise_lt_range W
    have hmem : ∀ a ∈ List.range W, a < W := fun a ha => List.mem_range.1 ha
    refine List.Pairwise.imp_of_mem ?_ hpw
    intro a b ha hb hab
    intro x hxa hxb
    have h1 := (strideIdx_mem W count fuel a x hxa).2.2
    have h2 := (strideIdx_mem W count fuel b x hxb).2.2
    rw [Nat.mod_eq_of_lt (hmem a ha)] at h1
    rw [Nat.mod_eq_of_lt (hmem b hb)] at h2
    omega

theorem stride_step_bounds (p Wn : Nat) (cs fileSize : Int) (hcs : 1 ≤ cs)
    (hno : fileSize + (Wn : Int) * cs < 2 ^ 63) (hlt : (p : Int) * cs < fileSize) :
    wrap64 ((p : Int) + 1) = (p : Int) + 1 ∧
    wrap64 ((p : Int) + (Wn : Int)) = ((p + Wn : Nat) : Int) ∧
    wrap64 (((p + Wn : Nat) : Int) * cs) = ((p + Wn : Nat) : Int) * cs ∧
    ((p + Wn : Nat) : Int) * cs < fileSize + (Wn : Int) * cs := by
  have hp0 : (0 : Int) ≤ (p : Int) := Int.natCast_nonneg p
  have hW0 : (0 : Int) ≤ (Wn : Int) := Int.natCast_nonneg Wn
  have hpcs : (p : Int) ≤ (p : Int) * cs := by nlinarith
  have hWcs : (Wn : Int) ≤ (Wn : Int) * cs := by nlinarith
  have hmul : ((p + Wn : Nat) : Int) * cs = (p : Int) * cs + (Wn : Int) * cs := by
    push_cast; ring
  have hcast : ((p + Wn : Nat) : Int) = (p : Int) + (Wn : Int) := Nat.cast_add p Wn
  refine ⟨?_, ?_, ?_, ?_⟩
  · apply wrap64_id <;> linarith
  · rw [hcast]; apply wrap64_id <;> linarith
  · apply wrap64_id <;> rw [hmul] <;> nlinarith
  · rw [hmul]; linarith

theorem uploadChunkLoop_full (io : ChunkIO) (cs fileSize : Int) (Wn : Nat)
    (hW : 1 ≤ Wn) (hcs : 1 ≤ cs) (hno : fileSize + (Wn : Int) * cs < 2 ^ 63)
    (hread : ∀ t off, 0 ≤ off → off < fileSize → io.readAt t off = min cs (fileSize - off))
    (hreq : ∀ t k, io.newRequestErr t k = false)
    (hput : ∀ t k off n, (io.doPut t k off n).isSome = true)
    (fuel t p : Nat) (hfuel : partCount fileSize cs ≤ fuel + p)
    (hp : (p : Int) * cs < fileSize + (Wn : Int) * cs) :
    ∃ es, uploadChunkLoop io cs fileSize Wn fuel t p ((p : Int) * cs) = some es ∧
      putsOf es = (strideIdx Wn (partCount fileSize cs) fuel p).map (putOfIdx cs fileSize) ∧
      (resultsOf es).map (fun r => r.PartNumber) =
        (strideIdx Wn (partCount fileSize cs) fuel p).map
          (fun q : Nat => sprintfD ((q : Int) + 1)) := by
  have hcs0 : 0 < cs := lt_of_lt_of_le Int.zero_lt_one hcs
  induction fuel generalizing t p with
  | zero =>
    have hge : ¬ (p : Int) * cs < fileSize := by
      rw [← partCount_spec fileSize cs p hcs0]
      rw [Nat.zero_add] at hfuel
      exact Nat.not_lt.2 hfuel
    refine ⟨[], ?_, ?_, ?_⟩
    · rw [uploadChunkLoop, if_neg hge]
    · rfl
    · rfl
  | succ f ih =>
    by_cases hlt : (p : Int) * cs < fileSize
    · have hpc : p < partCount fileSize cs := (partCount_spec fileSize cs p hcs0).2 hlt
      have hfuel2 : partCount fileSize cs ≤ f + (p + Wn) := by
        have h1 : f + 1 + p ≤ f + (p + Wn) := by
          have := Nat.add_le_add_left hW (f + p)
          calc f + 1 + p = f + p + 1 := by ring
            _ ≤ f + p + Wn := this
            _ = f + (p + Wn) := by ring
        exact le_trans hfuel h1
      obtain ⟨hw1, hw2, hw3, hnext⟩ := stride_step_bounds p Wn cs fileSize hcs hno hlt
      have hp0 : (0 : Int) ≤ (p : Int) * cs :=
        mul_nonneg (Int.natCast_nonneg p) (le_of_lt hcs0)
      have hr := hread t ((p : Int) * cs) hp0 hlt
      have hrpos : 0 < io.readAt t ((p : Int) * cs) := by
        rw [hr]; exact lt_min hcs0 (sub_pos.2 hlt)
      obtain ⟨etag, he⟩ := Option.isSome_iff_exists.1
        (hput t ((p : Int) + 1) ((p : Int) * cs) (io.readAt t ((p : Int) * cs)))
      obtain ⟨es, h1, h2, h3⟩ := ih (t + 1) (p + Wn) hfuel2 hnext
      refine ⟨Event.put ((p : Int) + 1) ((p : Int) * cs) (io.readAt t ((p : Int) * cs))
        :: Event.result ⟨sprintfD ((p : Int) + 1), trimQuotes etag⟩ :: es, ?_, ?_, ?_⟩
      · rw [uploadChunkLoop, if_pos hlt, if_pos hrpos, hw1, hreq]
        simp only [Bool.false_eq_true, if_false, he, hw2, hw3, h1, Option.map_some']
      · rw [putsOf, putsOf, h2, strideIdx, if_pos hpc, List.map_cons, putOfIdx, hr]
      · rw [resultsOf, resultsOf, List.map_cons, h3, strideIdx, if_pos hpc, List.map_cons]
    · have hpc : ¬ p < partCount fileSize cs := by
        rw [partCount_spec fileSize cs p hcs0]; exact hlt
      refine ⟨[], ?_, ?_, ?_⟩
      · rw [uploadChunkLoop, if_neg hlt]
      · rw [strideIdx, if_neg hpc]; rfl
      · rw [strideIdx, if_neg hpc]; rfl

theorem uploadChunk_eq_loop (io : ChunkIO) (cs fileSize W : Int) (fuel : Nat) (p : Int)
    (h0 : 0 ≤ cs) (hmax : cs ≤ maxAlloc) :
    uploadChunk io cs fileSize W fuel p =
      uploadChunkLoop io cs fileSize W fuel 0 p (wrap64 (p * cs)) := by
  unfold uploadChunk
  have hmake : ¬ (cs < 0 ∨ maxAlloc < cs) := by
    rintro (h | h)
    · exact absurd h0 (not_le.2 h)
    · exact absurd hmax (not_le.2 h)
  split_ifs with h
  · have hge : ¬ wrap64 (p * cs) < fileSize := not_lt.2 h
    cases fuel <;> simp [uploadChunkLoop, hge]
  · rfl

theorem uploadChunkLoop_no_panic (io : ChunkIO) (cs fileSize W : Int) (fuel t : Nat)
    (partSize offset : Int) (es : List Event)
    (h : uploadChunkLoop io cs fileSize W fuel t partSize offset = some es) :
    Event.panic ∉ es := by
  induction fuel generalizing t partSize offset es with
  | zero =>
    rw [uploadChunkLoop] at h
    split_ifs at h
    rw [← Option.some.inj h]
    exact List.not_mem_nil _
  | succ f ih =>
    rw [uploadChunkLoop] at h
    split_ifs at h with h1 h2 h3
    · exact ih _ _ _ _ h
    · cases hput : io.doPut t (wrap64 (partSize + 1)) offset (io.readAt t offset) with
      | none =>
        rw [hput] at h
        obtain ⟨es1, h4, h5⟩ := Option.map_eq_some'.1 h
        rw [← h5]
        intro hmem
        rcases List.mem_cons.1 hmem with hp | hp
        · exact Event.noConfusion hp
        · exact ih _ _ _ _ h4 hp
      | some etag =>
        rw [hput] at h
        obtain ⟨es1, h4, h5⟩ := Option.map_eq_some'.1 h
        rw [← h5]
        intro hmem
        rcases List.mem_cons.1 hmem with hp | hp
        · exact Event.noConfusion hp
        · rcases List.mem_cons.1 hp with hq | hq
          · exact Event.noConfusion hq
          · exact ih _ _ _ _ h4 hq
    · exact ih _ _ _ _ h
    · rw [← Option.some.inj h]
      exact List.not_mem_nil _

theorem workerPool_full_cover (W cs fileSize : Int) (io : Nat → ChunkIO) (fuel : Nat)
    (hW : 1 ≤ W) (hcs : 1 ≤ cs) (hmax : cs ≤ maxAlloc) (hf : 0 ≤ fileSize)
    (hno : fileSize + W * cs < 2 ^ 63)
    (hread : ∀ i t off, 0 ≤ off → off < fileSize →
      (io i).readAt t off = min cs (fileSize - off))
    (hreq : ∀ i t k, (io i).newRequestErr t k = false)
    (hput : ∀ i t k off n, ((io i).doPut t k off n).isSome = true)
    (hfuel : partCount fileSize cs ≤ fuel) :
    ∃ traces, workerPool io cs fileSize W fuel = some traces ∧
      Event.panic ∉ traces.flatten ∧
      (putsOf traces.flatten).Perm
        ((List.range (partCount fileSize cs)).map
          (fun p : Nat => ((p : Int) + 1, (p : Int) * cs, min cs (fileSize - (p : Int) * cs)))) ∧
      ((resultsOf traces.flatten).map (fun r => r.PartNumber)).Perm
        ((List.range (partCount fileSize cs)).map (fun p : Nat => sprintfD ((p : Int) + 1))) := by
  obtain ⟨Wn, rfl⟩ := Int.eq_ofNat_of_zero_le (by omega : 0 ≤ W)
  have hWn : 1 ≤ Wn := by exact_mod_cast hW
  have hcs0 : 0 < cs := by omega
  have hworker : ∀ i, i ∈ List.range Wn → ∃ es,
      uploadChunk (io i) cs fileSize Wn fuel i = some es ∧
      Event.panic ∉ es ∧
      putsOf es = (strideIdx Wn (partCount fileSize cs) fuel i).map (putOfIdx cs fileSize) ∧
      (resultsOf es).map (fun r => r.PartNumber) =
        (strideIdx Wn (partCount fileSize cs) fuel i).map
          (fun q : Nat => sprintfD ((q : Int) + 1)) := by
    intro i hi
    have hi' : i < Wn := List.mem_range.1 hi
    have hlt : (i : Int) * cs < (Wn : Int) * cs := by
      have : (i : Int) < (Wn : Int) := by exact_mod_cast hi'
      nlinarith
    have h0 : (0 : Int) ≤ (i : Int) * cs := by positivity
    have e : wrap64 ((i : Int) * cs) = (i : Int) * cs := by
      apply wrap64_id <;> omega
    rw [uploadChunk_eq_loop _ _ _ _ _ _ (le_of_lt hcs0) hmax, e]
    obtain ⟨es, h1, h2, h3⟩ := uploadChunkLoop_full (io i) cs fileSize Wn hWn hcs hno
      (hread i) (hreq i) (hput i) fuel 0 i (by omega) (by omega)
    exact ⟨es, h1, uploadChunkLoop_no_panic _ _ _ _ _ _ _ _ es h1, h2, h3⟩
  choose! f hf1 hfp hf2 hf3 using hworker
  refine ⟨(List.range Wn).map f, ?_, ?_, ?_, ?_⟩
  · unfold workerPool
    rw [Int.toNat_ofNat]
    exact allSome_map_some _ _ _ hf1
  · intro hmem
    obtain ⟨es, hes, hp⟩ := List.mem_flatten.1 hmem
    obtain ⟨i, hi, rfl⟩ := List.mem_map.1 hes
    exact hfp i hi hp
  · rw [putsOf_flatten, List.map_map]
    have e : (List.range Wn).map (putsOf ∘ f) = (List.range Wn).map
        (fun i => (strideIdx Wn (partCount fileSize cs) fuel i).map (putOfIdx cs fileSize)) :=
      List.map_congr_left (fun i hi => hf2 i hi)
    rw [e, ← List.flatMap_def, ← List.map_flatMap]
    exact (stride_cover_idx Wn _ fuel hWn hfuel).map _
  · rw [resultsOf_flatten, List.map_flatten, List.map_map, List.map_map]
    have e : (List.range Wn).map ((List.map (fun r => r.PartNumber) ∘ resultsOf) ∘ f) =
        (List.range Wn).map (fun i => (strideIdx Wn (partCount fileSize cs) fuel i).map
          (fun q : Nat => sprintfD ((q : Int) + 1))) :=
      List.map_congr_left (fun i hi => hf3 i hi)
    rw [e, ← List.flatMap_def, ← List.map_flatMap]
    exact (stride_cover_idx Wn _ fuel hWn hfuel).map _

/-- C2 (amended). Workers `0 … W-1` running `uploadChunk` over a file of `fileSize`
bytes in chunks of `cs` bytes, when `make([]byte, cs)` is within the allocation limit
(`cs ≤ maxAlloc`), no offset computation leaves the `int64` range
(`fileSize + W * cs < 2 ^ 63`), every read returns the whole range asked for that
the file still holds, and every PUT succeeds: every worker finishes (within
`partCount fileSize cs` passes) without a panic, the PUT requests of all workers
together are, up to order, exactly one per part index `p < partCount fileSize cs`,
with part number `p + 1` and the bytes `[p * cs, min ((p + 1) * cs) fileSize)` of the
file, and the parts sent on the channel carry exactly the part numbers
`1 … partCount fileSize cs`, each once. Hence the PUT requests of one worker and those
of 16 workers are the same up to order. -/
theorem stride_partition_cover (W cs fileSize : Int) (io : Nat → ChunkIO) (fuel : Nat)
    (hW : 1 ≤ W) (hcs : 1 ≤ cs) (hmax : cs ≤ maxAlloc) (hf : 0 ≤ fileSize)
    (hno : fileSize + W * cs < 2 ^ 63)
    (hread : ∀ i t off, 0 ≤ off → off < fileSize →
      (io i).readAt t off = min cs (fileSize - off))
    (hreq : ∀ i t k, (io i).newRequestErr t k = false)
    (hput : ∀ i t k off n, ((io i).doPut t k off n).isSome = true)
    (hfuel : partCount fileSize cs ≤ fuel) :
    (∃ traces, workerPool io cs fileSize W fuel = some traces ∧
      Event.panic ∉ traces.flatten ∧
      (putsOf traces.flatten).Perm
        ((List.range (partCount fileSize cs)).map
          (fun p : Nat => ((p : Int) + 1, (p : Int) * cs, min cs (fileSize - (p : Int) * cs)))) ∧
      ((resultsOf traces.flatten).map (fun r => r.PartNumber)).Perm
        ((List.range (partCount fileSize cs)).map (fun p : Nat => sprintfD ((p : Int) + 1)))) ∧
    (fileSize + 16 * cs < 2 ^ 63 →
      ∃ one sixteen, workerPool io cs fileSize 1 fuel = some one ∧
        workerPool io cs fileSize 16 fuel = some sixteen ∧
        Event.panic ∉ one.flatten ∧ Event.panic ∉ sixteen.flatten ∧
        (putsOf one.flatten).Perm (putsOf sixteen.flatten)) := by
  refine ⟨workerPool_full_cover W cs fileSize io fuel hW hcs hmax hf hno hread hreq hput hfuel,
    ?_⟩
  intro h16
  have h1 : fileSize + 1 * cs < 2 ^ 63 := by linarith
  obtain ⟨one, ho, hn1, hp1, _⟩ := workerPool_full_cover 1 cs fileSize io fuel (le_refl 1) hcs
    hmax hf h1 hread hreq hput hfuel
  obtain ⟨sixteen, hs, hn16, hp16, _⟩ := workerPool_full_cover 16 cs fileSize io fuel
    (by norm_num) hcs hmax hf h16 hread hreq hput hfuel
  exact ⟨one, sixteen, ho, hs, hn1, hn16, hp1.trans hp16.symm⟩

/-! ### Captcha chain -/

theorem captchaLoop_eq_foldl (md5Sum : String → Digest) (table : List md5Obj) (seed : String) :
    captchaLoop md5Sum table seed =
      (table.filter (fun e => e.Alg = "md5")).foldl
        (fun v e => sprintfX (md5Sum (v ++ e.Salt))) seed := by
  induction table generalizing seed with
  | nil => rfl
  | cons e rest ih =>
    unfold captchaLoop
    by_cases h : e.Alg = "md5"
    · simp [h, ih, List.filter_cons]
    · simp [h, ih, List.filter_cons]

theorem hexChar_mem (d : Nat) : hexChar d ∈ "0123456789abcdef".data := by
  unfold hexChar
  have h : d % 16 < 16 := Nat.mod_lt _ (by norm_num)
  generalize d % 16 = r at h
  interval_cases r <;> decide

theorem flatMap_pair_length {α β : Type} (l : List α) (f g : α → β) :
    (l.flatMap (fun b => [f b, g b])).length = 2 * l.length := by
  induction l with
  | nil => rfl
  | cons a l ih => simp [List.flatMap_cons, ih]; omega

theorem sprintfX_hex (d : Digest) :
    (sprintfX d).length = 32 ∧ ∀ c ∈ (sprintfX d).data, c ∈ "0123456789abcdef".data := by
  constructor
  · show (d.bytes.flatMap _).length = 32
    rw [flatMap_pair_length, d.size]
  · intro c hc
    simp only [sprintfX, List.mem_flatMap] at hc
    obtain ⟨b, _, hb⟩ := hc
    simp only [List.mem_cons, List.mem_singleton, List.not_mem_nil, or_false] at hb
    rcases hb with h | h <;> subst h <;> exact hexChar_mem _

theorem hexChar_eq (r : Nat) (h : r < 16) :
    hexChar r = "0123456789abcdef".data.getD r '0' := by
  interval_cases r <;> decide

theorem sprintfX_data (d : Digest) :
    (sprintfX d).data = d.bytes.flatMap (fun b =>
      ["0123456789abcdef".data.getD (b.val / 16) '0',
        "0123456789abcdef".data.getD (b.val % 16) '0']) := by
  unfold sprintfX
  show d.bytes.flatMap _ = _
  congr 1
  funext b
  have h1 : b.val / 16 < 16 := by
    have := b.isLt
    omega
  have h2 : b.val % 16 < 16 := Nat.mod_lt _ (by norm_num)
  rw [hexChar_eq _ h1, hexChar_eq _ h2]

/-- C10. The `captcha_sign` of `AuthCaptchaToken` is `"1."` followed by the left fold
`v := hex (md5 (v + salt))` over the table entries whose `alg` is `"md5"`, in table
order, started from the seed (for the loop: from any seed), where `hex` writes for
each of the 16 bytes `b` of the digest, in their order, the two characters of
`0123456789abcdef` at the positions `b / 16` and `b % 16`. The text `fmt.Sprintf("%x")`
gives is this one, of 32 characters, all among `0-9a-f`; for the MD5 digest of the
empty text it is `d41d8cd98f00b204e9800998ecf8427e`. Two tables with the same `"md5"`
entries in the same order give the same `captcha_sign`. -/
theorem captcha_chain_filtered_fold (md5Sum : String → Digest) (table : List md5Obj)
    (clientID deviceId : String) (nowMilli : Int) :
    (∀ seed : String, captchaLoop md5Sum table seed =
      (table.filter (fun e => e.Alg = "md5")).foldl
        (fun v e => String.mk ((md5Sum (v ++ e.Salt)).bytes.flatMap (fun b =>
          ["0123456789abcdef".data.getD (b.val / 16) '0',
            "0123456789abcdef".data.getD (b.val % 16) '0']))) seed) ∧
    captchaSign md5Sum table clientID deviceId nowMilli =
      "1." ++ (table.filter (fun e => e.Alg = "md5")).foldl
        (fun v e => String.mk ((md5Sum (v ++ e.Salt)).bytes.flatMap (fun b =>
          ["0123456789abcdef".data.getD (b.val / 16) '0',
            "0123456789abcdef".data.getD (b.val % 16) '0'])))
        (clientID ++ client_version ++ package_name ++ deviceId ++ sprintfD nowMilli) ∧
    (∀ d : Digest,
      (sprintfX d).data = d.bytes.flatMap (fun b =>
        ["0123456789abcdef".data.getD (b.val / 16) '0',
          "0123456789abcdef".data.getD (b.val % 16) '0']) ∧
      (sprintfX d).length = 32 ∧
      ∀ c ∈ (sprintfX d).data, c ∈ "0123456789abcdef".data) ∧
    sprintfX ⟨[212, 29, 140, 217, 143, 0, 178, 4, 233, 128, 9, 152, 236, 248, 66, 126], rfl⟩ =
      "d41d8cd98f00b204e9800998ecf8427e" ∧
    (∀ other : List md5Obj,
      other.filter (fun e => e.Alg = "md5") = table.filter (fun e => e.Alg = "md5") →
      captchaSign md5Sum other clientID deviceId nowMilli =
        captchaSign md5Sum table clientID deviceId nowMilli) := by
  have hhex : ∀ d : Digest, sprintfX d = String.mk (d.bytes.flatMap (fun b =>
      ["0123456789abcdef".data.getD (b.val / 16) '0',
        "0123456789abcdef".data.getD (b.val % 16) '0'])) := by
    intro d
    exact String.ext (sprintfX_data d)
  have hfold : ∀ (l : List md5Obj) (seed : String),
      l.foldl (fun v e => sprintfX (md5Sum (v ++ e.Salt))) seed =
      l.foldl (fun v e => String.mk ((md5Sum (v ++ e.Salt)).bytes.flatMap (fun b =>
          ["0123456789abcdef".data.getD (b.val / 16) '0',
            "0123456789abcdef".data.getD (b.val % 16) '0']))) seed := by
    intro l
    induction l with
    | nil => intro seed; rfl
    | cons e l ih =>
      intro seed
      rw [List.foldl_cons, List.foldl_cons, hhex, ih]
  refine ⟨?_, ?_, ?_, by decide, ?_⟩
  · intro seed
    rw [captchaLoop_eq_foldl, hfold]
  · unfold captchaSign
    rw [captchaLoop_eq_foldl, hfold]
  · intro d
    exact ⟨sprintfX_data d, (sprintfX_hex d).1, (sprintfX_hex d).2⟩
  · intro other h
    unfold captchaSign
    rw [captchaLoop_eq_foldl, captchaLoop_eq_foldl, h]

/-! ### sort.Slice -/

theorem sinkInto_perm {α : Type} (less : α → α → Bool) (x : α) (rev : List α) :
    (sinkInto less x rev).Perm (x :: rev) := by
  induction rev with
  | nil => exact List.Perm.refl _
  | cons y rev ih =>
    unfold sinkInto
    split_ifs
    · exact ((List.Perm.cons y ih).trans (List.Perm.swap x y rev))
    · exact List.Perm.refl _

theorem foldl_sinkInto_perm {α : Type} (less : α → α → Bool) (data acc : List α) :
    (data.foldl (fun rev x => sinkInto less x rev) acc).Perm (data ++ acc) := by
  induction data generalizing acc with
  | nil => exact List.Perm.refl _
  | cons x data ih =>
    simp only [List.foldl_cons, List.cons_append]
    refine (ih _).trans ?_
    refine (List.Perm.append_left data (sinkInto_perm less x acc)).trans ?_
    exact List.perm_middle

theorem sortSlice_perm {α : Type} (less : α → α → Bool) (data : List α) :
    (sortSlice less data).Perm data := by
  unfold sortSlice
  refine (List.reverse_perm _).trans ?_
  simpa using foldl_sinkInto_perm less data []

theorem sinkInto_sorted {α κ : Type} [LinearOrder κ] (key : α → κ) (less : α → α → Bool)
    (hless : ∀ a b, less a b = true ↔ key a < key b) (x : α) (rev : List α)
    (h : rev.Pairwise (fun a b => key b ≤ key a)) :
    (sinkInto less x rev).Pairwise (fun a b => key b ≤ key a) := by
  induction rev with
  | nil => simp [sinkInto]
  | cons y rev ih =>
    unfold sinkInto
    rw [List.pairwise_cons] at h
    split_ifs with hxy
    · rw [List.pairwise_cons]
      refine ⟨?_, ih h.2⟩
      intro z hz
      rcases List.mem_cons.1 ((sinkInto_perm less x rev).subset hz) with hzx | hzr
      · subst hzx; exact le_of_lt ((hless _ _).1 hxy)
      · exact h.1 z hzr
    · have hyx : key y ≤ key x := not_lt.1 (fun hlt => hxy ((hless _ _).2 hlt))
      rw [List.pairwise_cons]
      refine ⟨?_, List.pairwise_cons.2 h⟩
      intro z hz
      rcases List.mem_cons.1 hz with hzy | hzr
      · subst hzy; exact hyx
      · exact le_trans (h.1 z hzr) hyx

theorem sortSlice_sorted {α κ : Type} [LinearOrder κ] (key : α → κ) (less : α → α → Bool)
    (hless : ∀ a b, less a b = true ↔ key a < key b) (data : List α) :
    (sortSlice less data).Pairwise (fun a b => key a ≤ key b) := by
  unfold sortSlice
  rw [List.pairwise_reverse]
  have : ∀ acc : List α, acc.Pairwise (fun a b => key b ≤ key a) →
      (data.foldl (fun rev x => sinkInto less x rev) acc).Pairwise
        (fun a b => key b ≤ key a) := by
    induction data with
    | nil => intro acc h; exact h
    | cons x data ih =>
      intro acc h
      exact ih _ (sinkInto_sorted key less hless x acc h)
  exact this [] List.Pairwise.nil

/-- Entries with pairwise different keys have one sorted ordering only: every ordering
of `data` that is sorted for the keys is the one `sortSlice` returns. -/
theorem sorted_perm_unique {α κ : Type} [LinearOrder κ] (key : α → κ) (less : α → α → Bool)
    (hless : ∀ a b, less a b = true ↔ key a < key b) (data out : List α)
    (hnodup : (data.map key).Nodup) (hperm : out.Perm data)
    (hsorted : out.Pairwise (fun a b => key a ≤ key b)) :
    out = sortSlice less data := by
  have hmap : (out.map key).Perm ((sortSlice less data).map key) :=
    (hperm.trans (sortSlice_perm less data).symm).map key
  have hnd_out : (out.map key).Nodup := (hperm.map key).nodup_iff.2 hnodup
  have hkey_inj : ∀ a ∈ data, ∀ b ∈ data, key a = key b → a = b :=
    fun a ha b hb hab => List.inj_on_of_nodup_map hnodup ha hb hab
  have hstrict : ∀ l : List α, l.Perm data → l.Pairwise (fun a b => key a ≤ key b) →
      l.Pairwise (fun a b => key a < key b) := by
    intro l hl hs
    have hnd : (l.map key).Nodup := (hl.map key).nodup_iff.2 hnodup
    have hne : l.Pairwise (fun a b => key a ≠ key b) := by
      rw [List.Nodup, List.pairwise_map] at hnd
      exact hnd
    exact (hs.and hne).imp (fun h => lt_of_le_of_ne h.1 h.2)
  have h1 := hstrict out hperm hsorted
  have h2 := hstrict _ (sortSlice_perm less data) (sortSlice_sorted key less hless data)
  haveI : IsAntisymm α (fun a b => key a < key b) :=
    ⟨fun a b hab hba => absurd hab (not_lt.2 (le_of_lt hba))⟩
  exact List.eq_of_perm_of_sorted (hperm.trans (sortSlice_perm less data).symm) h1 h2

theorem sortSlice_perm_invariant {α κ : Type} [LinearOrder κ] (key : α → κ)
    (less : α → α → Bool) (hless : ∀ a b, less a b = true ↔ key a < key b)
    (l1 l2 : List α) (hnodup : (l1.map key).Nodup) (hperm : l1.Perm l2) :
    sortSlice less l1 = sortSlice less l2 := by
  have hnodup2 : (l2.map key).Nodup := (hperm.map key).nodup_iff.1 hnodup
  exact sorted_perm_unique key less hless l2 (sortSlice less l1) hnodup2
    ((sortSlice_perm less l1).trans hperm) (sortSlice_sorted key less hless l1)

/-! ### Decimal text -/

theorem decChar_toNat (d : Nat) : (decChar d).toNat = 48 + d % 10 := by
  unfold decChar
  have h : d % 10 < 10 := Nat.mod_lt _ (by norm_num)
  generalize d % 10 = r at h
  interval_cases r <;> rfl

theorem parseUintLoop_decDigits (fuel n : Nat) (acc : List Char) (hf : n < fuel)
    (hn : n < 2 ^ 64) :
    parseUintLoop (decDigits fuel n acc) 0 = parseUintLoop acc n := by
  induction fuel generalizing n acc with
  | zero => exact absurd hf (Nat.not_lt_zero _)
  | succ f ih =>
    have hstep : parseUintLoop (decChar n :: acc) (n / 10) = parseUintLoop acc n := by
      have h1 : (decChar n).toNat = 48 + n % 10 := decChar_toNat n
      have h2 : n / 10 * 10 + (48 + n % 10 - 48) = n := by omega
      rw [parseUintLoop, h1, if_pos (by omega), h2, if_neg (by omega)]
    unfold decDigits
    split_ifs with h0
    · rw [← hstep, h0]
    · rw [ih (n / 10) _ (by omega) (by omega), hstep]

theorem decDigits_head (fuel n : Nat) (acc : List Char) (hf : 0 < fuel) :
    ∃ c cs, decDigits fuel n acc = c :: cs ∧ 48 ≤ c.toNat ∧ c.toNat ≤ 57 := by
  induction fuel generalizing n acc with
  | zero => exact absurd hf (Nat.lt_irrefl _)
  | succ f ih =>
    unfold decDigits
    split_ifs with h0
    · exact ⟨decChar n, acc, rfl, by rw [decChar_toNat]; omega, by rw [decChar_toNat]; omega⟩
    · rcases Nat.eq_zero_or_pos f with hz | hpos
      · subst hz
        exact ⟨decChar n, acc, rfl, by rw [decChar_toNat]; omega, by rw [decChar_toNat]; omega⟩
      · exact ih (n / 10) (decChar n :: acc) hpos

/-- Reading back a part number: `strconv.Atoi` of `fmt.Sprintf("%d", k)` is `k` for
every `int64` value `k ≥ 0`. -/
theorem atoi_sprintfD (k : Int) (h0 : 0 ≤ k) (h1 : k ≤ maxInt64) : atoi (sprintfD k) = k := by
  obtain ⟨n, rfl⟩ := Int.eq_ofNat_of_zero_le h0
  have hn : n < 2 ^ 63 := by
    unfold maxInt64 at h1
    have : (n : Int) < 2 ^ 63 := by linarith
    exact_mod_cast this
  have hsp : sprintfD (n : Int) = String.mk (formatNat n) := by
    unfold sprintfD
    rw [if_neg (by simp)]
    simp
  obtain ⟨c, cs, hcs, hlo, hhi⟩ := decDigits_head (n + 1) n [] (Nat.succ_pos n)
  have hparse : parseUintLoop (c :: cs) 0 = ParseRes.ok n := by
    rw [← hcs, parseUintLoop_decDigits (n + 1) n [] (Nat.lt_succ_self n) (by omega)]
    rfl
  have hminus : c ≠ '-' := by
    intro h; subst h; revert hlo; decide
  have hplus : c ≠ '+' := by
    intro h; subst h; revert hlo; decide
  rw [hsp]
  unfold atoi formatNat
  simp only [hcs, hminus, hplus, or_self, if_false, hparse, decide_False]
  rw [if_neg (by omega)]

/-! ### Result collector -/

theorem sortSlice_strict {α κ : Type} [LinearOrder κ] (key : α → κ) (less : α → α → Bool)
    (hless : ∀ a b, less a b = true ↔ key a < key b) (data : List α)
    (hnodup : (data.map key).Nodup) :
    (sortSlice less data).Pairwise (fun a b => key a < key b) := by
  have hs := sortSlice_sorted key less hless data
  have hnd : ((sortSlice less data).map key).Nodup :=
    ((sortSlice_perm less data).map key).nodup_iff.2 hnodup
  have hne : (sortSlice less data).Pairwise (fun a b => key a ≠ key b) := by
    rw [List.Nodup, List.pairwise_map] at hnd
    exact hnd
  exact (hs.and hne).imp (fun h => lt_of_le_of_ne h.1 h.2)

theorem lessPart_iff (a b : part) :
    lessPart a b = true ↔ atoi a.PartNumber < atoi b.PartNumber := by
  unfold lessPart
  exact decide_eq_true_iff

/-- C9. Parts whose `PartNumber` texts are the decimal renderings of pairwise distinct
positive `int64` values (what `uploadChunk` renders) come out of the sort of
`UploadFile` in one order, whatever the order `arrival1` or `arrival2` in which the
channel delivered them: the sorted list is an ordering of the parts received and is
strictly ascending in the number `strconv.Atoi` reads from `PartNumber`. -/
theorem collector_order_independent (arrival1 arrival2 : List part)
    (hperm : arrival1.Perm arrival2)
    (hnum : ∀ p ∈ arrival1, ∃ k : Int, 0 < k ∧ k ≤ maxInt64 ∧ p.PartNumber = sprintfD k)
    (hdist : (arrival1.map (fun p => p.PartNumber)).Nodup) :
    sortSlice lessPart arrival1 = sortSlice lessPart arrival2 ∧
    (sortSlice lessPart arrival1).Perm arrival1 ∧
    (sortSlice lessPart arrival1).Pairwise
      (fun p q => atoi p.PartNumber < atoi q.PartNumber) := by
  have hkeys : (arrival1.map (fun p => atoi p.PartNumber)).Nodup := by
    have e : arrival1.map (fun p => atoi p.PartNumber) =
        (arrival1.map (fun p => p.PartNumber)).map atoi := by
      rw [List.map_map]; rfl
    rw [e]
    refine List.Nodup.map_on ?_ hdist
    intro s hs s' hs' heq
    obtain ⟨p, hp, rfl⟩ := List.mem_map.1 hs
    obtain ⟨q, hq, rfl⟩ := List.mem_map.1 hs'
    obtain ⟨k, hk0, hk1, hk⟩ := hnum p hp
    obtain ⟨j, hj0, hj1, hj⟩ := hnum q hq
    simp only at heq ⊢
    rw [hk, hj, atoi_sprintfD k (le_of_lt hk0) hk1, atoi_sprintfD j (le_of_lt hj0) hj1] at heq
    rw [hk, hj, heq]
  exact ⟨sortSlice_perm_invariant (fun p => atoi p.PartNumber) lessPart lessPart_iff
      arrival1 arrival2 hkeys hperm,
    sortSlice_perm lessPart arrival1,
    sortSlice_strict (fun p => atoi p.PartNumber) lessPart lessPart_iff arrival1 hkeys⟩

/-- An instance of C9: the parts `10`, `9`, `2` arriving in two different orders. -/
theorem collector_order_independent_witness :
    sortSlice lessPart [⟨"10", "c"⟩, ⟨"9", "b"⟩, ⟨"2", "a"⟩] =
        sortSlice lessPart [⟨"2", "a"⟩, ⟨"10", "c"⟩, ⟨"9", "b"⟩] ∧
      (sortSlice lessPart [⟨"10", "c"⟩, ⟨"9", "b"⟩, ⟨"2", "a"⟩]).Perm
        [⟨"10", "c"⟩, ⟨"9", "b"⟩, ⟨"2", "a"⟩] ∧
      (sortSlice lessPart [⟨"10", "c"⟩, ⟨"9", "b"⟩, ⟨"2", "a"⟩]).Pairwise
        (fun p q => atoi p.PartNumber < atoi q.PartNumber) :=
  collector_order_independent [⟨"10", "c"⟩, ⟨"9", "b"⟩, ⟨"2", "a"⟩]
    [⟨"2", "a"⟩, ⟨"10", "c"⟩, ⟨"9", "b"⟩] (by decide)
    (by
      intro p hp
      simp only [List.mem_cons, List.mem_singleton, List.not_mem_nil, or_false] at hp
      rcases hp with h | h | h
      · exact ⟨10, by decide, by decide, by rw [h]; decide⟩
      · exact ⟨9, by decide, by decide, by rw [h]; decide⟩
      · exact ⟨2, by decide, by decide, by rw [h]; decide⟩)
    (by decide)


/-! ### Request signer -/

theorem foldl_append_join {α : Type} (f : α → String) (l : List α) (init : String) :
    l.foldl (fun s x => s ++ f x) init = init ++ String.join (l.map f) := by
  have hjoin : ∀ (ss : List String) (acc : String),
      ss.foldl (fun r s => r ++ s) acc = acc ++ ss.foldl (fun r s => r ++ s) "" := by
    intro ss
    induction ss with
    | nil => intro acc; simp
    | cons s ss ih =>
      intro acc
      rw [List.foldl_cons, List.foldl_cons, ih (acc ++ s), ih ("" ++ s), String.append_assoc]
      simp
  induction l generalizing init with
  | nil => simp [String.join]
  | cons x l ih =>
    rw [List.foldl_cons, ih, List.map_cons]
    unfold String.join
    rw [List.foldl_cons, hjoin (l.map f) ("" ++ f x), String.append_assoc]
    simp

theorem containsChars_iff (sub s : List Char) :
    containsChars sub s = true ↔ ∃ pre suf, s = pre ++ sub ++ suf := by
  induction s with
  | nil =>
    unfold containsChars
    constructor
    · intro h
      exact ⟨[], [], by simp [List.isEmpty_iff.1 h]⟩
    · rintro ⟨pre, suf, h⟩
      have h' := congrArg List.length h
      simp only [List.length_nil, List.length_append] at h'
      exact List.isEmpty_iff.2 (List.length_eq_zero.1 (by omega))
  | cons c cs ih =>
    unfold containsChars
    rw [Bool.or_eq_true, ih, List.isPrefixOf_iff_prefix]
    constructor
    · rintro (⟨suf, h⟩ | ⟨pre, suf, h⟩)
      · exact ⟨[], suf, by simpa using h.symm⟩
      · exact ⟨c :: pre, suf, by simp [h]⟩
    · rintro ⟨pre, suf, h⟩
      cases pre with
      | nil => exact Or.inl ⟨suf, by simpa using h.symm⟩
      | cons p pre =>
        simp only [List.cons_append, List.cons.injEq] at h
        exact Or.inr ⟨pre, suf, h.2⟩

theorem collectHeaders_mem {Time : Type} (lib : Stdlib Time)
    (hdr : List (String × List String)) (h : header) :
    h ∈ collectHeaders lib hdr ↔
      ∃ k v vs, (k, v :: vs) ∈ hdr ∧ h = ⟨lib.toLower k, v⟩ ∧
        ∃ pre suf, (lib.toLower k).data = pre ++ "x-oss-".data ++ suf := by
  induction hdr with
  | nil => simp [collectHeaders]
  | cons kv rest ih =>
    obtain ⟨k, v⟩ := kv
    unfold collectHeaders
    by_cases hc : stringsContains (lib.toLower k) "x-oss-" = true ∧ 0 < v.length
    · rw [if_pos hc, List.mem_cons, ih]
      obtain ⟨hc1, hc2⟩ := hc
      obtain ⟨v0, vs0, rfl⟩ := List.exists_cons_of_length_pos hc2
      constructor
      · rintro (rfl | ⟨k', v', vs', hm, he, hx⟩)
        · exact ⟨k, v0, vs0, List.mem_cons_self _ _, rfl, (containsChars_iff _ _).1 hc1⟩
        · exact ⟨k', v', vs', List.mem_cons_of_mem _ hm, he, hx⟩
      · rintro ⟨k', v', vs', hm, he, hx⟩
        rcases List.mem_cons.1 hm with heq | hm
        · left
          simp only [Prod.mk.injEq, List.cons.injEq] at heq
          obtain ⟨rfl, rfl, rfl⟩ := heq
          exact he
        · exact Or.inr ⟨k', v', vs', hm, he, hx⟩
    · rw [if_neg hc, ih]
      constructor
      · rintro ⟨k', v', vs', hm, he, hx⟩
        exact ⟨k', v', vs', List.mem_cons_of_mem _ hm, he, hx⟩
      · rintro ⟨k', v', vs', hm, he, hx⟩
        rcases List.mem_cons.1 hm with heq | hm
        · exfalso
          simp only [Prod.mk.injEq] at heq
          obtain ⟨rfl, rfl⟩ := heq
          exact hc ⟨(containsChars_iff _ _).2 hx, by simp⟩
        · exact ⟨k', v', vs', hm, he, hx⟩

theorem lessHeader_iff (a b : header) : lessHeader a b = true ↔ a.key.data < b.key.data := by
  unfold lessHeader
  exact decide_eq_true_iff

theorem canonicalString_eq {Time : Type} (lib : Stdlib Time) (req : Request)
    (body : Option (List Nat)) (time : Time) (args : ossArgs) :
    canonicalString lib req body time args =
      req.Method ++ "\n" ++ "\n" ++ headerGet req.Header "Content-Type" ++ "\n" ++
        lib.formatHTTP time ++ "\n" ++
        String.join ((sortSlice lessHeader (collectHeaders lib req.Header)).map
          (fun h => h.key ++ ":" ++ h.val ++ "\n")) ++
        "/" ++ args.Bucket ++ req.Path ++ "?" ++ req.RawQuery := by
  unfold canonicalString
  cases body <;> simp only [foldl_append_join, String.append_assoc]

theorem lookup_perm_of_nodup {β : Type} (l1 l2 : List (String × β)) (h : l1.Perm l2)
    (nd : (l1.map Prod.fst).Nodup) (k : String) : l1.lookup k = l2.lookup k := by
  induction h with
  | nil => rfl
  | cons x _ ih =>
    rw [List.map_cons, List.nodup_cons] at nd
    obtain ⟨a, b⟩ := x
    by_cases hk : k = a
    · subst hk; simp [List.lookup]
    · have hka : (k == a) = false := by simpa using hk
      simp only [List.lookup, hka]
      exact ih nd.2
  | swap x y l =>
    obtain ⟨a, b⟩ := x
    obtain ⟨c, d⟩ := y
    simp only [List.map_cons, List.nodup_cons, List.mem_cons, not_or] at nd
    have hne : c ≠ a := nd.1.1
    by_cases h1 : k = a
    · subst h1
      have hkc : (k == c) = false := by simpa using fun h => hne h.symm
      simp [List.lookup, hkc]
    · have h1b : (k == a) = false := by simpa using h1
      by_cases h2 : k = c
      · subst h2; simp [List.lookup, h1b]
      · have h2b : (k == c) = false := by simpa using h2
        simp [List.lookup, h1b, h2b]
  | trans h1 _ ih1 ih2 =>
    exact (ih1 nd).trans (ih2 ((h1.map Prod.fst).nodup_iff.1 nd))

theorem collectHeaders_perm {Time : Type} (lib : Stdlib Time)
    (l1 l2 : List (String × List String)) (h : l1.Perm l2) :
    (collectHeaders lib l1).Perm (collectHeaders lib l2) := by
  induction h with
  | nil => exact List.Perm.refl _
  | cons x _ ih =>
    obtain ⟨k, v⟩ := x
    unfold collectHeaders
    split_ifs
    · exact List.Perm.cons _ ih
    · exact ih
  | swap x y l =>
    obtain ⟨k, v⟩ := x
    obtain ⟨k2, v2⟩ := y
    simp only [collectHeaders]
    split_ifs
    · exact List.Perm.swap _ _ _
    · exact List.Perm.refl _
    · exact List.Perm.refl _
    · exact List.Perm.refl _
  | trans _ _ ih1 ih2 => exact ih1.trans ih2

theorem canonicalString_perm_invariant {Time : Type} (lib : Stdlib Time) (req : Request)
    (other : List (String × List String)) (body : Option (List Nat)) (time : Time)
    (args : ossArgs) (hperm : req.Header.Perm other)
    (hmap : (req.Header.map Prod.fst).Nodup)
    (hlow : ((collectHeaders lib req.Header).map (fun h => h.key)).Nodup) :
    canonicalString lib req body time args =
      canonicalString lib { req with Header := other } body time args := by
  have hget : headerGet req.Header "Content-Type" = headerGet other "Content-Type" := by
    unfold headerGet
    rw [lookup_perm_of_nodup req.Header other hperm hmap]
  have hkeys : ((collectHeaders lib req.Header).map (fun h : header => h.key.data)).Nodup := by
    have e : (collectHeaders lib req.Header).map (fun h : header => h.key.data) =
        ((collectHeaders lib req.Header).map (fun h => h.key)).map String.data := by
      rw [List.map_map]; rfl
    rw [e]
    refine List.Nodup.map ?_ hlow
    intro a b hab
    exact String.ext hab
  have hsort : sortSlice lessHeader (collectHeaders lib req.Header) =
      sortSlice lessHeader (collectHeaders lib other) :=
    sortSlice_perm_invariant (fun h : header => h.key.data) lessHeader lessHeader_iff _ _
      hkeys (collectHeaders_perm lib _ _ hperm)
  rw [canonicalString_eq, canonicalString_eq]
  simp only [hget, hsort]

/-- C8 (amended). For a header map in which no two selected names coincide once in
lower case, `hmacAuthorization` returns the same signature for every order `other` in
which the map `req.Header` is visited. -/
theorem signature_independent_of_header_order {Time : Type} (lib : Stdlib Time)
    (req : Request) (other : List (String × List String)) (body : Option (List Nat))
    (time : Time) (args : ossArgs) (hperm : req.Header.Perm other)
    (hmap : (req.Header.map Prod.fst).Nodup)
    (hlow : ((collectHeaders lib req.Header).map (fun h => h.key)).Nodup) :
    hmacAuthorization lib req body time args =
      hmacAuthorization lib { req with Header := other } body time args := by
  unfold hmacAuthorization
  rw [canonicalString_perm_invariant lib req other body time args hperm hmap hlow]

/-- An instance of C8 (amended): a request with two vendor headers, which the loop
collects in two different orders when the header map is visited in two orders; the
sort brings them into one order, `x-oss-meta-author` before `x-oss-security-token`,
and HMAC-SHA1 as Go computes it gives one signature. -/
theorem signature_independent_of_header_order_witness :
    reqTwoVendor.Header.Perm reqTwoVendorSwapped.Header ∧
    collectHeaders goStdlib reqTwoVendor.Header =
      [⟨"x-oss-security-token", "token"⟩, ⟨"x-oss-meta-author", "a"⟩] ∧
    collectHeaders goStdlib reqTwoVendorSwapped.Header =
      [⟨"x-oss-meta-author", "a"⟩, ⟨"x-oss-security-token", "token"⟩] ∧
    canonicalString goStdlib reqTwoVendor none 1709251199 exampleArgs =
      "PUT\n\napplication/octet-stream\nThu, 29 Feb 2024 23:59:59 GMT\nx-oss-meta-author:a\nx-oss-security-token:token\n/bucket/key?partNumber=1&uploadId=U" ∧
    hmacAuthorization goStdlib reqTwoVendor none 1709251199 exampleArgs =
      "zpHPgnIQRT6ouribvEfY7VpmovY=" ∧
    hmacAuthorization goStdlib reqTwoVendor none 1709251199 exampleArgs =
      hmacAuthorization goStdlib reqTwoVendorSwapped none 1709251199 exampleArgs :=
  ⟨by decide, by decide, by decide, by decide, by decide,
    signature_independent_of_header_order goStdlib reqTwoVendor reqTwoVendorSwapped.Header none
      1709251199 exampleArgs (by decide) (by decide) (by decide)⟩

/-- C8 as stated fails: the header map with the two names `X-Oss-A` and `x-oss-a`
(one map, its keys differ) visited in two orders gives two canonical strings, the
lines `x-oss-a:1` and `x-oss-a:2` swapped, and two signatures. -/
theorem signature_depends_on_header_order :
    reqTwoCases.Header.Perm reqTwoCasesSwapped.Header ∧
    (reqTwoCases.Header.map Prod.fst).Nodup ∧
    reqTwoCases.Method = reqTwoCasesSwapped.Method ∧
    reqTwoCases.Path = reqTwoCasesSwapped.Path ∧
    reqTwoCases.RawQuery = reqTwoCasesSwapped.RawQuery ∧
    canonicalString goStdlib reqTwoCases none 1709251199 exampleArgs =
      "PUT\n\napplication/octet-stream\nThu, 29 Feb 2024 23:59:59 GMT\nx-oss-a:1\nx-oss-a:2\n/bucket/key?partNumber=1&uploadId=U" ∧
    canonicalString goStdlib reqTwoCasesSwapped none 1709251199 exampleArgs =
      "PUT\n\napplication/octet-stream\nThu, 29 Feb 2024 23:59:59 GMT\nx-oss-a:2\nx-oss-a:1\n/bucket/key?partNumber=1&uploadId=U" ∧
    hmacAuthorization goStdlib reqTwoCases none 1709251199 exampleArgs =
      "/RhRIBofnH3FM0xyNRz0ietfkQw=" ∧
    hmacAuthorization goStdlib reqTwoCasesSwapped none 1709251199 exampleArgs =
      "hL3gMxkJ1TOcN5am2KkrhhHxGtc=" := by
  refine ⟨by decide, by decide, rfl, rfl, rfl, by decide, by decide, by decide, by decide⟩

/-- C7 (amended). The header lines of the canonical string are those of the list `hs`
whose entries are exactly the pairs (lower-case name, first value) of the headers that
have a value and whose lower-case name contains `x-oss-` at any position. -/
theorem vendor_headers_selected_by_containment {Time : Type} (lib : Stdlib Time)
    (req : Request) (body : Option (List Nat)) (time : Time) (args : ossArgs) :
    ∃ hs : List header,
      canonicalString lib req body time args =
        req.Method ++ "\n" ++ "\n" ++ headerGet req.Header "Content-Type" ++ "\n" ++
          lib.formatHTTP time ++ "\n" ++
          String.join (hs.map (fun h => h.key ++ ":" ++ h.val ++ "\n")) ++
          "/" ++ args.Bucket ++ req.Path ++ "?" ++ req.RawQuery ∧
      ∀ h : header, h ∈ hs ↔
        ∃ k v vs, (k, v :: vs) ∈ req.Header ∧ h = ⟨lib.toLower k, v⟩ ∧
          ∃ pre suf, (lib.toLower k).data = pre ++ "x-oss-".data ++ suf := by
  refine ⟨sortSlice lessHeader (collectHeaders lib req.Header),
    canonicalString_eq lib req body time args, ?_⟩
  intro h
  rw [← collectHeaders_mem lib req.Header h]
  exact (sortSlice_perm lessHeader (collectHeaders lib req.Header)).mem_iff

/-- C7 as stated fails: the lower-case name of the header `Max-Oss-Age` does not start
with `x-oss-`, the selection by first characters leaves it out, and the canonical
string holds the line `max-oss-age:1`. -/
theorem vendor_header_selected_without_leading_marker :
    "x-oss-".data.isPrefixOf (goStdlib.toLower "Max-Oss-Age").data = false ∧
    collectHeadersSpec goStdlib reqMaxOssAge.Header = [⟨"x-oss-security-token", "token"⟩] ∧
    collectHeaders goStdlib reqMaxOssAge.Header =
      [⟨"max-oss-age", "1"⟩, ⟨"x-oss-security-token", "token"⟩] ∧
    canonicalString goStdlib reqMaxOssAge none 1709251199 exampleArgs =
      "PUT\n\napplication/octet-stream\nThu, 29 Feb 2024 23:59:59 GMT\nmax-oss-age:1\nx-oss-security-token:token\n/bucket/key?partNumber=1&uploadId=U" := by
  refine ⟨by decide, by decide, by decide, by decide⟩

/-! ### Failures inside a worker -/

theorem uploadChunkLoop_never_ends (io : ChunkIO) (cs fileSize W : Int)
    (partSize offset : Int) (hoff : offset < fileSize)
    (hfail : ∀ t, 0 < io.readAt t offset ∧
      (io.newRequestErr t (wrap64 (partSize + 1)) = true ∨
        io.doPut t (wrap64 (partSize + 1)) offset (io.readAt t offset) = none))
    (fuel t : Nat) :
    uploadChunkLoop io cs fileSize W fuel t partSize offset = none := by
  induction fuel generalizing t with
  | zero => rw [uploadChunkLoop, if_pos hoff]
  | succ f ih =>
    obtain ⟨hr, hbad⟩ := hfail t
    rw [uploadChunkLoop, if_pos hoff, if_pos hr]
    by_cases hq : io.newRequestErr t (wrap64 (partSize + 1)) = true
    · rw [if_pos hq]; exact ih (t + 1)
    · rw [if_neg hq]
      rcases hbad with h | h
      · exact absurd h hq
      · rw [h]
        simp only [ih (t + 1), Option.map_none']

/-- C4 (amended). A pass of the loop of `uploadChunk` whose PUT fails in transit sends
the PUT, puts no part on the channel, and leaves `partSize` and `offset` as they are:
the next pass reads and sends the same chunk again. A later pass `s` at the same chunk
whose PUT succeeds still puts the part on the channel and only then moves to
`partSize + W`; a pass whose read returns no byte moves to `partSize + W` without a
PUT. A worker whose PUT of a chunk fails in every pass never finishes, whatever the
number of passes. -/
theorem transport_failure_retries_same_chunk (io : ChunkIO) (cs fileSize W : Int)
    (fuel t : Nat) (partSize offset : Int) (hoff : offset < fileSize)
    (hread : 0 < io.readAt t offset)
    (hreq : io.newRequestErr t (wrap64 (partSize + 1)) = false)
    (hfail : io.doPut t (wrap64 (partSize + 1)) offset (io.readAt t offset) = none) :
    uploadChunkLoop io cs fileSize W (fuel + 1) t partSize offset =
        (uploadChunkLoop io cs fileSize W fuel (t + 1) partSize offset).map
          (fun es => Event.put (wrap64 (partSize + 1)) offset (io.readAt t offset) :: es) ∧
      (∀ n s etag, 0 < io.readAt s offset →
        io.newRequestErr s (wrap64 (partSize + 1)) = false →
        io.doPut s (wrap64 (partSize + 1)) offset (io.readAt s offset) = some etag →
        uploadChunkLoop io cs fileSize W (n + 1) s partSize offset =
          (uploadChunkLoop io cs fileSize W n (s + 1) (wrap64 (partSize + W))
            (wrap64 (wrap64 (partSize + W) * cs))).map
            (fun es => Event.put (wrap64 (partSize + 1)) offset (io.readAt s offset)
              :: Event.result ⟨sprintfD (wrap64 (partSize + 1)), trimQuotes etag⟩ :: es)) ∧
      (∀ n s, io.readAt s offset ≤ 0 →
        uploadChunkLoop io cs fileSize W (n + 1) s partSize offset =
          uploadChunkLoop io cs fileSize W n (s + 1) (wrap64 (partSize + W))
            (wrap64 (wrap64 (partSize + W) * cs))) ∧
      ((∀ s, 0 < io.readAt s offset ∧
          io.doPut s (wrap64 (partSize + 1)) offset (io.readAt s offset) = none) →
        ∀ n s, uploadChunkLoop io cs fileSize W n s partSize offset = none) := by
  refine ⟨?_, ?_, ?_, ?_⟩
  · rw [uploadChunkLoop, if_pos hoff, if_pos hread, hreq, hfail]
    simp
  · intro n s etag hr hq hp
    rw [uploadChunkLoop, if_pos hoff, if_pos hr, hq, hp]
    simp
  · intro n s hr
    rw [uploadChunkLoop, if_pos hoff, if_neg (not_lt.2 hr)]
  · intro hall n s
    exact uploadChunkLoop_never_ends io cs fileSize W partSize offset hoff
      (fun u => ⟨(hall u).1, Or.inr (hall u).2⟩) n s

/-- An instance of C4 (amended): one chunk of 4 bytes whose PUT fails in every pass;
no pass at this chunk ends otherwise, and the worker never finishes. -/
theorem transport_failure_retries_same_chunk_witness :
    uploadChunkLoop (ioPutFails 4 4) 4 4 16 (2 + 1) 0 0 0 =
        (uploadChunkLoop (ioPutFails 4 4) 4 4 16 2 (0 + 1) 0 0).map
          (fun es => Event.put (wrap64 (0 + 1)) 0 ((ioPutFails 4 4).readAt 0 0) :: es) ∧
      ∀ n s, uploadChunkLoop (ioPutFails 4 4) 4 4 16 n s 0 0 = none :=
  ⟨(transport_failure_retries_same_chunk (ioPutFails 4 4) 4 4 16 2 0 0 0
      (by decide) (by decide) (by decide) (by decide)).1,
    (transport_failure_retries_same_chunk (ioPutFails 4 4) 4 4 16 2 0 0 0
      (by decide) (by decide) (by decide) (by decide)).2.2.2
      (fun _ => ⟨by simp [ioPutFails], rfl⟩)⟩

/-- C4 as stated fails: worker 0 of 16 on a file of one chunk of 4 bytes. When the
first PUT fails in transit and the second succeeds, the worker sends the PUT of part 1
at offset 0 twice and then puts part 1 on the channel; when every PUT fails, the
worker is still in its loop after 50 passes. -/
theorem transport_failure_not_dropped :
    uploadChunk (ioPutFailsOnce 4 4) 4 4 16 3 0 =
      some [Event.put 1 0 4, Event.put 1 0 4, Event.result ⟨"1", "etag"⟩] ∧
    uploadChunk (ioPutFails 4 4) 4 4 16 50 0 = none := by
  refine ⟨by decide, by decide⟩

/-! ### Stride partition: instances -/

/-- An instance of C2 (amended): two workers, a file of 10 bytes, chunks of 4 bytes. -/
theorem stride_partition_cover_witness :
    (∃ traces, workerPool (fun _ => ioFull 4 10) 4 10 2 3 = some traces ∧
      Event.panic ∉ traces.flatten ∧
      (putsOf traces.flatten).Perm
        ((List.range (partCount 10 4)).map
          (fun p : Nat => ((p : Int) + 1, (p : Int) * 4, min 4 (10 - (p : Int) * 4)))) ∧
      ((resultsOf traces.flatten).map (fun r => r.PartNumber)).Perm
        ((List.range (partCount 10 4)).map (fun p : Nat => sprintfD ((p : Int) + 1)))) ∧
    ((10 : Int) + 16 * 4 < 2 ^ 63 →
      ∃ one sixteen, workerPool (fun _ => ioFull 4 10) 4 10 1 3 = some one ∧
        workerPool (fun _ => ioFull 4 10) 4 10 16 3 = some sixteen ∧
        Event.panic ∉ one.flatten ∧ Event.panic ∉ sixteen.flatten ∧
        (putsOf one.flatten).Perm (putsOf sixteen.flatten)) :=
  stride_partition_cover 2 4 10 (fun _ => ioFull 4 10) 3 (by decide) (by decide) (by decide)
    (by decide) (by decide)
    (by
      intro i t off h0 h1
      have hneg : ¬ off < 0 := not_lt.2 h0
      simp only [ioFull, hneg, if_false])
    (by intro i t k; rfl) (by intro i t k off n; rfl) (by decide)

theorem wrap64_mul_pow20_lt (x : Int) : wrap64 (x * 2 ^ 20) < 2 ^ 63 - 1 := by
  unfold wrap64
  norm_num
  omega

theorem uploadChunkLoop_pow20_never_ends (fuel t : Nat) (p : Int) :
    uploadChunkLoop (ioFull (2 ^ 20) (2 ^ 63 - 1)) (2 ^ 20) (2 ^ 63 - 1) 1 fuel t p
      (wrap64 (p * 2 ^ 20)) = none := by
  induction fuel generalizing t p with
  | zero => rw [uploadChunkLoop, if_pos (wrap64_mul_pow20_lt p)]
  | succ f ih =>
    rw [uploadChunkLoop, if_pos (wrap64_mul_pow20_lt p)]
    split_ifs with h1 h2
    · exact absurd h2 (by simp [ioFull])
    · have hput : (ioFull (2 ^ 20) (2 ^ 63 - 1)).doPut t (wrap64 (p + 1)) (wrap64 (p * 2 ^ 20))
          ((ioFull (2 ^ 20) (2 ^ 63 - 1)).readAt t (wrap64 (p * 2 ^ 20))) = some "\"etag\"" := rfl
      rw [hput]
      simp only [ih (t + 1) (wrap64 (p + 1)), Option.map_none']
    · exact ih (t + 1) (wrap64 (p + 1))

/-- C2 as stated fails in three ways. A read that returns one byte of the four the
file holds satisfies "at least one byte", and the single PUT of part 1 then carries
the byte `[0, 1)`, not `[0, 4)`. With one worker, chunks of `2 ^ 20` bytes and a file
of `2 ^ 63 - 1` bytes, all of whose parts are read in full, the product
`partSize * ChunkSize` leaves the `int64` range at `partSize = 2 ^ 43`, no offset ever
reaches the file size, and the worker never finishes. And with one chunk of
`2 ^ 48 + 1` bytes the worker panics at `make([]byte, ChunkSize)` before any PUT. -/
theorem stride_partition_fails_as_stated :
    (∀ t off, 1 ≤ ioOneByte.readAt t off) ∧
    partCount 4 4 = 1 ∧
    workerPool (fun _ => ioOneByte) 4 4 1 1 =
      some [[Event.put 1 0 1, Event.result ⟨"1", "etag"⟩]] ∧
    (∀ t off, 0 ≤ off → off < 2 ^ 63 - 1 →
      1 ≤ (ioFull (2 ^ 20) (2 ^ 63 - 1)).readAt t off) ∧
    partCount (2 ^ 63 - 1) (2 ^ 20) = 2 ^ 43 ∧
    (¬ ∃ fuel traces, workerPool (fun _ => ioFull (2 ^ 20) (2 ^ 63 - 1)) (2 ^ 20) (2 ^ 63 - 1)
      1 fuel = some traces) ∧
    (∀ t off, 0 ≤ off → off < 2 ^ 48 + 1 →
      1 ≤ (ioFull (2 ^ 48 + 1) (2 ^ 48 + 1)).readAt t off) ∧
    partCount (2 ^ 48 + 1) (2 ^ 48 + 1) = 1 ∧
    workerPool (fun _ => ioFull (2 ^ 48 + 1) (2 ^ 48 + 1)) (2 ^ 48 + 1) (2 ^ 48 + 1) 1 1 =
      some [[Event.panic]] := by
  refine ⟨fun _ _ => le_refl _, by decide, by decide, ?_, by decide, ?_, ?_, by decide,
    by decide⟩
  · intro t off h0 h1
    have hneg : ¬ off < 0 := not_lt.2 h0
    simp only [ioFull, hneg, if_false]
    exact le_min (by norm_num) (by omega)
  · rintro ⟨fuel, traces, h⟩
    have hnone : uploadChunk (ioFull (2 ^ 20) (2 ^ 63 - 1)) (2 ^ 20) (2 ^ 63 - 1) 1 fuel
        ((0 : Nat) : Int) = none := by
      rw [uploadChunk_eq_loop _ _ _ _ _ _ (by norm_num) (by norm_num [maxAlloc])]
      exact uploadChunkLoop_pow20_never_ends fuel 0 _
    have hpool : workerPool (fun _ => ioFull (2 ^ 20) (2 ^ 63 - 1)) (2 ^ 20) (2 ^ 63 - 1)
        1 fuel = none := by
      unfold workerPool
      have : (1 : Int).toNat = 1 := rfl
      rw [this]
      simp only [List.range_succ, List.range_zero, List.nil_append, List.map_cons, List.map_nil,
        hnone, allSome]
    rw [hpool] at h
    exact Option.noConfusion h
  · intro t off h0 h1
    have hneg : ¬ off < 0 := not_lt.2 h0
    simp only [ioFull, hneg, if_false]
    exact le_min (by norm_num) (by omega)

/-! ### Chunk planner: instances -/

/-- The examples of the specification: 0 bytes give no part, 1 byte gives one part,
`10000 * 262144` bytes give chunks of 262144 bytes and 10000 parts, 1000000 bytes give
chunks of 262144 bytes and 4 parts. -/
theorem chunk_planner_examples :
    partCount 0 (chunkSizeOf 0) = 0 ∧
    partCount 1 (chunkSizeOf 1) = 1 ∧
    chunkSizeOf (10000 * 262144) = 262144 ∧
    partCount (10000 * 262144) (chunkSizeOf (10000 * 262144)) = 10000 ∧
    chunkSizeOf 1000000 = 262144 ∧
    partCount 1000000 (chunkSizeOf 1000000) = 4 := by
  refine ⟨by decide, by decide, by decide, by decide, by decide, by decide⟩

/-- C1 at the failing input. For a file of `9007199254750001 = 10000 * 900719925475 + 1`
bytes, `float64(fileSize)` is `9007199254750000`, the chunk size comes out as
`900719925475` instead of `max 262144 (ceil (fileSize / 10000)) = 900719925476`, the
file has 10001 parts, and 16 workers whose reads and PUTs all succeed send 10001 PUT
requests. -/
theorem chunk_planner_exceeds_limit :
    float64OfNat 9007199254750001 = 9007199254750000 ∧
    chunkSizeOf 9007199254750001 = 900719925475 ∧
    max (2 ^ 18 : Int) ((9007199254750001 + 9999) / 10000) = 900719925476 ∧
    partCount 9007199254750001 (chunkSizeOf 9007199254750001) = 10001 ∧
    ∃ traces,
      workerPool (fun _ => ioFull (chunkSizeOf 9007199254750001) 9007199254750001)
        (chunkSizeOf 9007199254750001) 9007199254750001 16 10001 = some traces ∧
      Event.panic ∉ traces.flatten ∧
      (putsOf traces.flatten).length = 10001 := by
  have hcs : chunkSizeOf 9007199254750001 = 900719925475 := by decide
  have hpc : partCount 9007199254750001 900719925475 = 10001 := by decide
  refine ⟨by decide, hcs, by decide, by rw [hcs]; exact hpc, ?_⟩
  rw [hcs]
  obtain ⟨traces, h1, hnp, h2, _⟩ := workerPool_full_cover 16 900719925475 9007199254750001
    (fun _ => ioFull 900719925475 9007199254750001) 10001 (by norm_num) (by norm_num)
    (by norm_num [maxAlloc]) (by norm_num) (by norm_num)
    (by
      intro i t off h0 _
      have hneg : ¬ off < 0 := not_lt.2 h0
      simp only [ioFull, hneg, if_false])
    (by intro i t k; rfl) (by intro i t k off n; rfl) (by rw [hpc])
  refine ⟨traces, h1, hnp, ?_⟩
  rw [h2.length_eq, List.length_map, List.length_range, hpc]

/-! ### UploadFile: instances -/

/-- C3 at the failing input. In an upload of 300000 bytes (two chunks) in which the
read of the first chunk returns no byte and every other call succeeds, `UploadFile`
returns the file id, and the list it hands to `afterUpload` holds part 2 only. -/
theorem manifest_gap_after_empty_read :
    partCount 300000 (chunkSizeOf 300000) = 2 ∧
    UploadFile worldReadEmpty Concurrent 3 = some (Outcome.ok "file-id",
      [NetEvent.metadata, NetEvent.initiate, NetEvent.put "U" 2 262144 37856,
        NetEvent.finalize "U" [⟨"2", "etag"⟩]]) := by
  refine ⟨by decide, by decide⟩

/-- C5 at the failing input. In an upload of 300000 bytes in which the initiate call
fails in transit and every other call succeeds, `UploadFile` sends the PUT of both
chunks and the complete call, all for the upload id `""`, and returns the file id
without an error. -/
theorem initiate_failure_not_propagated :
    UploadFile worldInitiateFails Concurrent 3 = some (Outcome.ok "file-id",
      [NetEvent.metadata, NetEvent.initiate, NetEvent.put "" 1 0 262144,
        NetEvent.put "" 2 262144 37856,
        NetEvent.finalize "" [⟨"1", "etag"⟩, ⟨"2", "etag"⟩]]) := by
  decide

/-- A failed initiate call changes nothing but the upload id: after a failure in
transit, in reading the body or in decoding it, `UploadFile` returns what it returns,
and makes the requests it makes, when the object store answers with the upload id
`""`. -/
theorem initiate_failure_same_as_empty_id (w : World) (W : Int) (fuel : Nat)
    (h : w.initiate = InitiateOutcome.doErr ∨ w.initiate = InitiateOutcome.readErr ∨
      w.initiate = InitiateOutcome.xmlErr) :
    UploadFile w W fuel = UploadFile { w with initiate := InitiateOutcome.ok "" } W fuel := by
  have hb : beforeUpload w = beforeUpload { w with initiate := InitiateOutcome.ok "" } := by
    rcases h with h | h | h <;> simp only [beforeUpload, h]
  have ha : ∀ args id, afterUpload w args id =
      afterUpload { w with initiate := InitiateOutcome.ok "" } args id := fun _ _ => rfl
  simp only [UploadFile, hb, ha]

/-! ### The list handed to afterUpload when no read comes back empty -/

theorem strideIdx_fuel_irrelevant (W count : Nat) (hW : 1 ≤ W) (f g p : Nat)
    (hf : count ≤ f + p) (hg : count ≤ g + p) :
    strideIdx W count f p = strideIdx W count g p := by
  induction f generalizing g p with
  | zero =>
    have hp : ¬ p < count := by omega
    cases g with
    | zero => rfl
    | succ g => rw [strideIdx, strideIdx, if_neg hp]
  | succ f ih =>
    by_cases hp : p < count
    · cases g with
      | zero => omega
      | succ g =>
        rw [strideIdx, strideIdx, if_pos hp, if_pos hp, ih g (p + W) (by omega) (by omega)]
    · cases g with
      | zero => rw [strideIdx, strideIdx, if_neg hp]
      | succ g => rw [strideIdx, strideIdx, if_neg hp, if_neg hp]

theorem uploadChunkLoop_results (io : ChunkIO) (cs fileSize : Int) (Wn : Nat)
    (hW : 1 ≤ Wn) (hcs : 1 ≤ cs) (hno : fileSize + (Wn : Int) * cs < 2 ^ 63)
    (hread : ∀ t off, 0 ≤ off → off < fileSize → 0 < io.readAt t off)
    (fuel t p : Nat) (es : List Event)
    (h : uploadChunkLoop io cs fileSize Wn fuel t p ((p : Int) * cs) = some es) :
    (resultsOf es).map (fun r => r.PartNumber) =
      (strideIdx Wn (partCount fileSize cs) (partCount fileSize cs) p).map
        (fun q : Nat => sprintfD ((q : Int) + 1)) := by
  have hcs0 : 0 < cs := lt_of_lt_of_le Int.zero_lt_one hcs
  induction fuel generalizing t p es with
  | zero =>
    rw [uploadChunkLoop] at h
    by_cases hlt : (p : Int) * cs < fileSize
    · rw [if_pos hlt] at h; exact Option.noConfusion h
    · rw [if_neg hlt] at h
      have hes : es = [] := (Option.some.inj h).symm
      have hpc : ¬ p < partCount fileSize cs := by
        rw [partCount_spec fileSize cs p hcs0]; exact hlt
      rw [hes, strideIdx_fuel_irrelevant Wn _ hW _ 0 p (by omega) (by omega)]
      rfl
  | succ f ih =>
    rw [uploadChunkLoop] at h
    by_cases hlt : (p : Int) * cs < fileSize
    · have hpc : p < partCount fileSize cs := (partCount_spec fileSize cs p hcs0).2 hlt
      obtain ⟨hw1, hw2, hw3, _⟩ := stride_step_bounds p Wn cs fileSize hcs hno hlt
      have hp0 : (0 : Int) ≤ (p : Int) * cs :=
        mul_nonneg (Int.natCast_nonneg p) (le_of_lt hcs0)
      have hrpos := hread t ((p : Int) * cs) hp0 hlt
      have hstride : strideIdx Wn (partCount fileSize cs) (partCount fileSize cs) p =
          p :: strideIdx Wn (partCount fileSize cs) (partCount fileSize cs) (p + Wn) := by
        obtain ⟨c, hc⟩ : ∃ c, partCount fileSize cs = c + 1 := ⟨partCount fileSize cs - 1, by omega⟩
        rw [hc, strideIdx, if_pos (by omega),
          strideIdx_fuel_irrelevant Wn (c + 1) hW c (c + 1) (p + Wn) (by omega) (by omega)]
      rw [if_pos hlt, if_pos hrpos, hw1] at h
      by_cases hq : io.newRequestErr t ((p : Int) + 1) = true
      · rw [if_pos hq] at h
        exact ih (t + 1) p es h
      · rw [if_neg hq] at h
        cases hput : io.doPut t ((p : Int) + 1) ((p : Int) * cs) (io.readAt t ((p : Int) * cs)) with
        | none =>
          rw [hput] at h
          obtain ⟨es1, h1, h2⟩ := Option.map_eq_some'.1 h
          rw [← h2, resultsOf]
          exact ih (t + 1) p es1 h1
        | some etag =>
          rw [hput] at h
          simp only [hw2, hw3] at h
          obtain ⟨es1, h1, h2⟩ := Option.map_eq_some'.1 h
          rw [← h2, resultsOf, resultsOf, List.map_cons, ih (t + 1) (p + Wn) es1 h1, hstride,
            List.map_cons]
    · rw [if_neg hlt] at h
      have hes : es = [] := (Option.some.inj h).symm
      have hpc : ¬ p < partCount fileSize cs := by
        rw [partCount_spec fileSize cs p hcs0]; exact hlt
      rw [hes, strideIdx_fuel_irrelevant Wn _ hW _ 0 p (by omega) (by omega)]
      rfl

theorem allSome_map_eq {α β γ : Type} (l : List α) (g : α → Option β) (F : β → γ)
    (G : α → γ) (hFG : ∀ a ∈ l, ∀ b, g a = some b → F b = G a) (r : List β)
    (h : allSome (l.map g) = some r) : r.map F = l.map G := by
  induction l generalizing r with
  | nil =>
    have hr : r = [] := (Option.some.inj h).symm
    rw [hr]; rfl
  | cons a l ih =>
    rw [List.map_cons] at h
    cases hga : g a with
    | none => rw [hga] at h; exact Option.noConfusion h
    | some b =>
      rw [hga, allSome] at h
      obtain ⟨r1, h1, h2⟩ := Option.map_eq_some'.1 h
      rw [← h2, List.map_cons, List.map_cons,
        hFG a (List.mem_cons_self _ _) b hga,
        ih (fun x hx y hy => hFG x (List.mem_cons_of_mem _ hx) y hy) r1 h1]

theorem workerPool_results (W cs fileSize : Int) (io : Nat → ChunkIO) (fuel : Nat)
    (hW : 1 ≤ W) (hcs : 1 ≤ cs) (hmax : cs ≤ maxAlloc) (hf : 0 ≤ fileSize)
    (hno : fileSize + W * cs < 2 ^ 63)
    (hread : ∀ i t off, 0 ≤ off → off < fileSize → 0 < (io i).readAt t off)
    (traces : List (List Event)) (h : workerPool io cs fileSize W fuel = some traces) :
    ((resultsOf traces.flatten).map (fun r => r.PartNumber)).Perm
      ((List.range (partCount fileSize cs)).map (fun p : Nat => sprintfD ((p : Int) + 1))) := by
  obtain ⟨Wn, rfl⟩ := Int.eq_ofNat_of_zero_le (le_trans Int.one_nonneg hW)
  have hWn : 1 ≤ Wn := by exact_mod_cast hW
  have hcs0 : 0 < cs := lt_of_lt_of_le Int.zero_lt_one hcs
  unfold workerPool at h
  rw [Int.toNat_ofNat] at h
  have hmap := allSome_map_eq (List.range Wn)
    (fun i : Nat => uploadChunk (io i) cs fileSize Wn fuel i)
    (fun es => (resultsOf es).map (fun r => r.PartNumber))
    (fun i => (strideIdx Wn (partCount fileSize cs) (partCount fileSize cs) i).map
      (fun q : Nat => sprintfD ((q : Int) + 1)))
    (by
      intro i hi es hes
      have hi2 : i < Wn := List.mem_range.1 hi
      have hlt : (i : Int) * cs < (Wn : Int) * cs := by
        have : (i : Int) < (Wn : Int) := by exact_mod_cast hi2
        nlinarith
      have h0 : (0 : Int) ≤ (i : Int) * cs := mul_nonneg (Int.natCast_nonneg i) (le_of_lt hcs0)
      have e : wrap64 ((i : Int) * cs) = (i : Int) * cs := by
        apply wrap64_id <;> linarith
      have hes2 : uploadChunk (io i) cs fileSize Wn fuel i = some es := hes
      rw [uploadChunk_eq_loop _ _ _ _ _ _ (le_of_lt hcs0) hmax, e] at hes2
      exact uploadChunkLoop_results (io i) cs fileSize Wn hWn hcs hno (hread i) fuel 0 i es hes2)
    traces h
  rw [resultsOf_flatten, List.map_flatten, List.map_map]
  have e2 : traces.map ((List.map fun r => r.PartNumber) ∘ resultsOf) =
      traces.map (fun es => (resultsOf es).map (fun r => r.PartNumber)) := rfl
  rw [e2, hmap, ← List.flatMap_def, ← List.map_flatMap]
  exact (stride_cover_idx Wn _ _ hWn (le_refl _)).map _

theorem chunkSizeOf_ge (fileSize : Int) : 2 ^ 18 ≤ chunkSizeOf fileSize := by
  unfold chunkSizeOf defaultChunkSize
  split_ifs with h1 h2
  · exact le_refl _
  · exact le_refl _
  · exact not_lt.1 h2

theorem sprintfD_range_sorted (count : Nat) (hc : (count : Int) ≤ maxInt64) :
    ((List.range count).map (fun p : Nat => sprintfD ((p : Int) + 1))).Pairwise
      (fun a b => atoi a < atoi b) := by
  rw [List.pairwise_map]
  refine List.Pairwise.imp_of_mem ?_ (List.pairwise_lt_range count)
  intro a b ha hb hab
  have ha2 : a < count := List.mem_range.1 ha
  have hb2 : b < count := List.mem_range.1 hb
  have hca : ((a : Int) + 1) ≤ maxInt64 := by
    have : (a : Int) + 1 ≤ (count : Int) := by exact_mod_cast ha2
    exact le_trans this hc
  have hcb : ((b : Int) + 1) ≤ maxInt64 := by
    have : (b : Int) + 1 ≤ (count : Int) := by exact_mod_cast hb2
    exact le_trans this hc
  rw [atoi_sprintfD _ (by positivity) hca, atoi_sprintfD _ (by positivity) hcb]
  have : (a : Int) < (b : Int) := by exact_mod_cast hab
  linarith

/-- When no read comes back empty, the list handed to `afterUpload` is complete. In
every run of `UploadFile` that reaches the transfer, in which no offset computation
leaves the `int64` range, the channel capacity and the chunk size are within the limits
of `make` and every read
inside the file returns at least one byte, and that returns the file id without an error, whatever the PUT requests met, the list
handed to `afterUpload` carries the part numbers `1 … partCount`, in this order, each
once. The gap of `manifest_gap_after_empty_read` needs a read that returns no byte. -/
theorem manifest_complete_when_no_read_is_empty (w : World) (W : Int) (fuel : Nat)
    (fileSize : Int) (fileID : String) (events : List NetEvent)
    (hstat : w.stat = Except.ok fileSize) (hW : 1 ≤ W) (hWmax : W ≤ maxChanCap)
    (hf : 0 ≤ fileSize) (hmax : chunkSizeOf fileSize ≤ maxAlloc)
    (hno : fileSize + W * chunkSizeOf fileSize < 2 ^ 63)
    (hread : ∀ i t off, 0 ≤ off → off < fileSize → 0 < (w.workers i).readAt t off)
    (harr : ∀ outs, (w.arrival outs).Perm outs.flatten)
    (hphase : ∀ resp, w.send = Except.ok resp → resp.phase ≠ "PHASE_TYPE_COMPLETE")
    (hret : UploadFile w W fuel = some (Outcome.ok fileID, events)) :
    ∃ parts, NetEvent.finalize (beforeUpload w).1 parts ∈ events ∧
      parts.map (fun r => r.PartNumber) =
        (List.range (partCount fileSize (chunkSizeOf fileSize))).map
          (fun p : Nat => sprintfD ((p : Int) + 1)) := by
  have hcs : (1 : Int) ≤ chunkSizeOf fileSize :=
    le_trans (by norm_num) (chunkSizeOf_ge fileSize)
  have hcs0 : 0 < chunkSizeOf fileSize := lt_of_lt_of_le Int.zero_lt_one hcs
  -- the number of parts is an int64
  have hcount : ((partCount fileSize (chunkSizeOf fileSize) : Nat) : Int) ≤ maxInt64 := by
    by_contra hc
    have hc2 : maxInt64 < ((partCount fileSize (chunkSizeOf fileSize) : Nat) : Int) :=
      not_le.1 hc
    unfold maxInt64 at hc2
    have hpos : 0 < partCount fileSize (chunkSizeOf fileSize) := by
      have : (0 : Int) < ((partCount fileSize (chunkSizeOf fileSize) : Nat) : Int) := by
        linarith
      exact_mod_cast this
    have hlt : partCount fileSize (chunkSizeOf fileSize) - 1 <
        partCount fileSize (chunkSizeOf fileSize) := Nat.sub_lt hpos Nat.one_pos
    have hspec := (partCount_spec fileSize (chunkSizeOf fileSize) _ hcs0).1 hlt
    have hcast : ((partCount fileSize (chunkSizeOf fileSize) - 1 : Nat) : Int) =
        ((partCount fileSize (chunkSizeOf fileSize) : Nat) : Int) - 1 := by
      rw [Nat.cast_sub hpos]; rfl
    rw [hcast] at hspec
    have hWcs : (0 : Int) ≤ W * chunkSizeOf fileSize := by nlinarith
    nlinarith
  unfold UploadFile at hret
  rw [hstat] at hret
  simp only at hret
  split at hret
  · simp at hret
  · split at hret
    · simp at hret
    · split at hret
      · simp at hret
      · split at hret
        · simp at hret
        · rename_i resp hsend
          rw [if_neg (hphase resp hsend)] at hret
          split at hret
          · simp at hret
          · have hchan : ¬ (W < 0 ∨ maxChanCap < W) := by
              rintro (h | h)
              · exact absurd (le_trans Int.one_nonneg hW) (not_le.2 h)
              · exact absurd hWmax (not_le.2 h)
            rw [if_neg hchan] at hret
            split at hret
            · simp at hret
            · rename_i traces hpool
              have hres := workerPool_results W (chunkSizeOf fileSize) fileSize w.workers fuel
                hW hcs hmax hf hno hread traces hpool
              split at hret
              · simp at hret
              have hE := sprintfD_range_sorted _ hcount
              have harrP : ((w.arrival (traces.map resultsOf)).map (fun r => r.PartNumber)).Perm
                  ((List.range (partCount fileSize (chunkSizeOf fileSize))).map
                    (fun p : Nat => sprintfD ((p : Int) + 1))) := by
                refine ((harr (traces.map resultsOf)).map _).trans ?_
                rw [← resultsOf_flatten]
                exact hres
              have hkeys : ((w.arrival (traces.map resultsOf)).map
                  (fun r => atoi r.PartNumber)).Nodup := by
                have e : (w.arrival (traces.map resultsOf)).map (fun r => atoi r.PartNumber) =
                    ((w.arrival (traces.map resultsOf)).map (fun r => r.PartNumber)).map atoi := by
                  rw [List.map_map]; rfl
                rw [e]
                refine (harrP.map atoi).nodup_iff.2 ?_
                rw [List.Nodup, List.pairwise_map]
                exact hE.imp (fun h => ne_of_lt h)
              have hsortedP : ((sortSlice lessPart (w.arrival (traces.map resultsOf))).map
                  (fun r => r.PartNumber)).Perm
                  ((List.range (partCount fileSize (chunkSizeOf fileSize))).map
                    (fun p : Nat => sprintfD ((p : Int) + 1))) :=
                ((sortSlice_perm lessPart _).map _).trans harrP
              have hstrict : ((sortSlice lessPart (w.arrival (traces.map resultsOf))).map
                  (fun r => r.PartNumber)).Pairwise (fun a b => atoi a < atoi b) := by
                rw [List.pairwise_map]
                exact sortSlice_strict (fun p => atoi p.PartNumber) lessPart lessPart_iff _ hkeys
              haveI : IsAntisymm String (fun a b => atoi a < atoi b) :=
                ⟨fun a b hab hba => absurd hab (not_lt.2 (le_of_lt hba))⟩
              have heq := List.eq_of_perm_of_sorted hsortedP hstrict hE
              refine ⟨sortSlice lessPart (w.arrival (traces.map resultsOf)), ?_, heq⟩
              cases hfin : w.finalize with
              | marshalErr e => simp [afterUpload, hfin] at hret
              | newRequestErr e => simp [afterUpload, hfin] at hret
              | doErr e => simp [afterUpload, hfin] at hret
              | readErr e => simp [afterUpload, hfin] at hret
              | ok =>
                simp only [afterUpload, hfin] at hret
                have hev := (Prod.mk.inj (Option.some.inj hret)).2
                rw [← hev]
                simp

/-- An instance of `manifest_complete_when_no_read_is_empty`: the upload of 300000
bytes in which every call succeeds. -/
theorem manifest_complete_when_no_read_is_empty_witness :
    ∃ parts, NetEvent.finalize (beforeUpload worldOk).1 parts ∈
        [NetEvent.metadata, NetEvent.initiate, NetEvent.put "U" 1 0 262144,
          NetEvent.put "U" 2 262144 37856,
          NetEvent.finalize "U" [⟨"1", "etag"⟩, ⟨"2", "etag"⟩]] ∧
      parts.map (fun r => r.PartNumber) =
        (List.range (partCount 300000 (chunkSizeOf 300000))).map
          (fun p : Nat => sprintfD ((p : Int) + 1)) :=
  manifest_complete_when_no_read_is_empty worldOk Concurrent 3 300000 "file-id" _ rfl (by decide)
    (by decide) (by decide) (by decide) (by decide)
    (by
      intro i t off h0 h1
      have hneg : ¬ off < 0 := not_lt.2 h0
      simp only [worldOk, ioFull, hneg, if_false]
      exact lt_min (by norm_num) (by omega))
    (fun outs => List.Perm.refl _)
    (by
      intro resp h
      have hr : resp = ⟨"PHASE_TYPE_PENDING", "file-id", exampleArgs⟩ :=
        (Except.ok.inj h).symm
      rw [hr]
      decide)
    (by decide)

/-! ### The standard library functions: known answers -/

/-- The functions of `goStdlib` on published examples: SHA-1 of `"abc"`, the second
HMAC-SHA1 example of RFC 2202, the base64 examples of RFC 4648, the reference time of
the Go `time` package, and a header name in lower case. -/
theorem goStdlib_known_answers :
    sha1 (bytesOf "abc") = [169, 153, 62, 54, 71, 6, 129, 106, 186, 62, 37, 113, 120, 80, 194,
      108, 156, 208, 216, 157] ∧
    goStdlib.hmacSha1 "Jefe" "what do ya want for nothing?" = [239, 252, 223, 106, 229, 235,
      47, 162, 210, 116, 22, 213, 241, 132, 223, 156, 37, 154, 124, 121] ∧
    goStdlib.base64 (bytesOf "foobar") = "Zm9vYmFy" ∧
    goStdlib.base64 (bytesOf "fooba") = "Zm9vYmE=" ∧
    goStdlib.base64 (bytesOf "foob") = "Zm9vYg==" ∧
    goStdlib.formatHTTP 1136239445 = "Mon, 02 Jan 2006 22:04:05 GMT" ∧
    goStdlib.formatHTTP 951782400 = "Tue, 29 Feb 2000 00:00:00 GMT" ∧
    goStdlib.toLower "X-Oss-Security-Token" = "x-oss-security-token" := by
  refine ⟨by decide, by decide, by decide, by decide, by decide, by decide, by decide,
    by decide⟩

/-- MD5 as written out here on published examples (RFC 1321), and the `captcha_sign`
it gives with the table `md5Arr` for one client id, device id and time stamp: nine
digests chained, each taken of the text before it followed by the salt. -/
theorem captcha_sign_known_answers :
    sprintfX (goMd5Sum "") = "d41d8cd98f00b204e9800998ecf8427e" ∧
    sprintfX (goMd5Sum "abc") = "900150983cd24fb0d6963f7d28e17f72" ∧
    sprintfX (goMd5Sum
      "12345678901234567890123456789012345678901234567890123456789012345678901234567890") =
      "57edf4a22be3c955ac49da2e2107b67a" ∧
    captchaSign goMd5Sum md5Arr "YNxT9w7GMdWvEOKa" "0123456789abcdef0123456789abcdef"
      1700000000000 = "1.b2ffc08c2c9ca50ed3a575b0bca30796" ∧
    captchaSign goMd5Sum (⟨"sha1", "x"⟩ :: md5Arr ++ [⟨"none", "y"⟩]) "YNxT9w7GMdWvEOKa"
      "0123456789abcdef0123456789abcdef" 1700000000000 =
      "1.b2ffc08c2c9ca50ed3a575b0bca30796" := by
  refine ⟨by decide, by decide, by decide, by decide, by decide⟩

/-- A chunk size above the allocation limit ends the upload in a panic. For a file of
2900000000000000000 bytes the chunk size is above `2 ^ 48`, every worker panics at
`make([]byte, ChunkSize)`, and no PUT and no complete call is made. -/
theorem upload_panics_on_huge_chunk :
    maxAlloc < chunkSizeOf 2900000000000000000 ∧
    UploadFile worldHuge Concurrent 0 =
      some (Outcome.panic, [NetEvent.metadata, NetEvent.initiate]) := by
  refine ⟨by decide, by decide⟩

end Pikpak
